import Mathlib

/-!
Shallow embedding of the PipeAndCaret HL7 v2 parser/serializer core
(`src/hl7/parse.ts`, `src/hl7/serialize.ts`, `src/hl7/fieldReparse.ts`,
`src/app/types.ts`).  JS strings are modelled as lists of characters;
JS one-character-separator `String.prototype.split` / `Array.prototype.join`,
`substring`, `indexOf`, `trim` are modelled by the explicit functions below.
-/

/-- A JS string, modelled as its list of characters. -/
abbrev Str := List Char

/-- The ECMAScript whitespace characters trimmed by `String.prototype.trim`. -/
def jsWhitespaceChars : Str :=
  [' ', '\t', '\n', '\u000B', '\u000C', '\r',
   '\u00A0', '\u1680', '\u2000', '\u2001', '\u2002', '\u2003',
   '\u2004', '\u2005', '\u2006', '\u2007', '\u2008', '\u2009',
   '\u200A', '\u2028', '\u2029', '\u202F', '\u205F', '\u3000',
   '\uFEFF']

/-- Whether `String.prototype.trim` removes the character `c`. -/
def isJsWs (c : Char) : Bool := jsWhitespaceChars.contains c

/-- Drop leading JS whitespace. -/
def trimFront (s : Str) : Str := s.dropWhile isJsWs

/-- `String.prototype.trim`: drop leading and trailing JS whitespace. -/
def jsTrim (s : Str) : Str := ((trimFront s).reverse.dropWhile isJsWs).reverse

/-- JS `s.split(c)` for a one-character separator `c`: split at every
occurrence, keeping empty pieces.  `"".split(c) = [""]`. -/
def splitOnChar (c : Char) : Str → List Str
  | [] => [[]]
  | a :: rest =>
    match splitOnChar c rest with
    | [] => [[]]
    | h :: t => if a = c then [] :: h :: t else (a :: h) :: t

/-- JS `pieces.join(c)` for a one-character separator `c`. -/
def joinSep (c : Char) : List Str → Str
  | [] => []
  | [s] => s
  | s :: t :: rest => s ++ c :: joinSep c (t :: rest)

/-- Index of the first occurrence of `c` in `s` (JS `indexOf` with a found
result; `none` models the JS return value `-1`). -/
def idxOf? (c : Char) : Str → Option Nat
  | [] => none
  | a :: rest => if a = c then some 0 else (idxOf? c rest).map (· + 1)

/-- JS `s.indexOf(c, start)`: `-1` when absent. -/
def jsIndexOfFrom (s : Str) (c : Char) (start : Nat) : Int :=
  match idxOf? c (s.drop start) with
  | some i => ((start + i : Nat) : Int)
  | none => -1

/-- JS `s.substring(a, b)`: both arguments are clamped into `[0, length]`
and swapped when `a > b` (so `s.substring(4, -1) = s.substring(0, 4)`). -/
def jsSubstring (s : Str) (a b : Int) : Str :=
  let n : Int := s.length
  let a' := min (max a 0) n
  let b' := min (max b 0) n
  (s.take (max a' b').toNat).drop (min a' b').toNat

/-- JS `s[i]` under a bounds guarantee (out of range yields NUL here; every
use in the embedding is guarded by a length check, as in the source). -/
def charAt (s : Str) (i : Nat) : Char := s.getD i (Char.ofNat 0)

/-- JS `s[i] || dflt`: the character when in range, otherwise the default
(out-of-range indexing yields `undefined`, which is falsy). -/
def charOrDefault (s : Str) (i : Nat) (dflt : Char) : Char := s.getD i dflt

/-!
## Data model (`src/app/types.ts`)
-/

/-- `HL7Delimiters` (`types.ts`).  The source field `repeat` is called `rep`
here because `repeat` is reserved in Lean. -/
structure HL7Delimiters where
  segment : Char
  field : Char
  rep : Char
  component : Char
  subcomponent : Char
  escape : Char
deriving DecidableEq, Repr

/-- `SubcomponentNode` (`types.ts`): the leaf string value. -/
structure SubcomponentNode where
  value : Str
deriving DecidableEq, Repr

/-- `ComponentNode` (`types.ts`). -/
structure ComponentNode where
  subcomponents : List SubcomponentNode
deriving DecidableEq, Repr

/-- `RepeatNode` (`types.ts`). -/
structure RepeatNode where
  components : List ComponentNode
deriving DecidableEq, Repr

/-- `FieldNode` (`types.ts`): 1-based HL7 field index plus repeats. -/
structure FieldNode where
  index : Nat
  repeats : List RepeatNode
deriving DecidableEq, Repr

/-- `SegmentNode` (`types.ts`). -/
structure SegmentNode where
  name : Str
  fields : List FieldNode
deriving DecidableEq, Repr

/-- `HL7Message` (`types.ts`). -/
structure HL7Message where
  delimiters : HL7Delimiters
  segments : List SegmentNode
deriving DecidableEq, Repr

/-- `ParseError` (`types.ts`); all optional diagnostic fields. -/
structure ParseError where
  message : Str
  segmentIndex : Option Nat
  segmentName : Option Str
  fieldIndex : Option Nat
  snippet : Option Str
deriving DecidableEq, Repr

/-!
## Parser (`src/hl7/parse.ts`)
-/

/-- `normalizeLineEndings`, first pass: `input.replace(/\r\n/g, '\r')`. -/
def normCRLF : Str → Str
  | [] => []
  | [c] => [c]
  | a :: b :: rest =>
    if a = '\r' ∧ b = '\n' then '\r' :: normCRLF rest
    else a :: normCRLF (b :: rest)

/-- `normalizeLineEndings`, second pass: `.replace(/\n/g, '\r')`. -/
def normLF (s : Str) : Str := s.map (fun c => if c = '\n' then '\r' else c)

/-- `normalizeLineEndings` (`parse.ts` 26-29). -/
def normalizeLineEndings (input : Str) : Str := normLF (normCRLF input)

/-- `extractDelimiters` (`parse.ts` 34-67): read the five delimiters from the
header line, with defaults for a short encoding block. -/
def extractDelimiters (mshLine : Str) : Option HL7Delimiters :=
  if ¬ ("MSH".toList.isPrefixOf mshLine) ∨ mshLine.length < 8 then none
  else
    let fieldDelim := charAt mshLine 3
    let encodingChars := jsSubstring mshLine 4 (jsIndexOfFrom mshLine fieldDelim 4)
    if encodingChars.length < 4 then
      some { segment := '\r', field := fieldDelim,
             rep := charOrDefault encodingChars 1 '~',
             component := charOrDefault encodingChars 0 '^',
             subcomponent := charOrDefault encodingChars 3 '&',
             escape := charOrDefault encodingChars 2 '\\' }
    else
      some { segment := '\r', field := fieldDelim,
             rep := charAt encodingChars 1,
             component := charAt encodingChars 0,
             subcomponent := charAt encodingChars 3,
             escape := charAt encodingChars 2 }

/-- `parseField` (`parse.ts` 72-108): three-level split into
repeats / components / subcomponents. -/
def parseField (fieldString : Str) (delimiters : HL7Delimiters) (fieldIndex : Nat) :
    FieldNode :=
  { index := fieldIndex,
    repeats := (splitOnChar delimiters.rep fieldString).map (fun repeatStr =>
      { components := (splitOnChar delimiters.component repeatStr).map (fun componentStr =>
          { subcomponents := (splitOnChar delimiters.subcomponent componentStr).map
              (fun subStr => { value := subStr }) }) }) }

/-- The `for` loops of `parseSegment` / `parseMSHSegment` that turn the tokens
after the segment name into fields numbered `start`, `start+1`, …. -/
def parseFieldsFrom (pieces : List Str) (delimiters : HL7Delimiters) (start : Nat) :
    List FieldNode :=
  match pieces with
  | [] => []
  | p :: ps => parseField p delimiters start :: parseFieldsFrom ps delimiters (start + 1)

/-- The raw encoding-characters substring of a header line as computed by
`parseMSHSegment` (`parse.ts` 128-132): from position 4 up to the next field
delimiter, or the whole remainder when the delimiter never recurs. -/
def headerEncodingChars (mshLine : Str) (fd : Char) : Str :=
  let afterDelim := jsSubstring mshLine 4 mshLine.length
  match idxOf? fd afterDelim with
  | some p => jsSubstring afterDelim 0 p
  | none => afterDelim

/-- `parseMSHSegment` (`parse.ts` 114-156): MSH-1 is synthesized from the
field delimiter, MSH-2 is the raw encoding block, MSH-3 onwards are parsed
normally. -/
def parseMSHSegment (mshLine : Str) (delimiters : HL7Delimiters) : SegmentNode :=
  let afterDelim := jsSubstring mshLine 4 mshLine.length
  let f1 : FieldNode := ⟨1, [⟨[⟨[⟨[delimiters.field]⟩]⟩]⟩]⟩
  match idxOf? delimiters.field afterDelim with
  | some p =>
    let encodingChars := jsSubstring afterDelim 0 p
    let remaining :=
      splitOnChar delimiters.field (jsSubstring afterDelim (p + 1) afterDelim.length)
    ⟨"MSH".toList,
      f1 :: ⟨2, [⟨[⟨[⟨encodingChars⟩]⟩]⟩]⟩ :: parseFieldsFrom remaining delimiters 3⟩
  | none =>
    ⟨"MSH".toList, [f1, ⟨2, [⟨[⟨[⟨afterDelim⟩]⟩]⟩]⟩]⟩

/-- The segment-name pattern `/^[A-Z][A-Z0-9]{2}$/` (`parse.ts` 179). -/
def isValidSegName (name : Str) : Bool :=
  match name with
  | [a, b, c] => a.isUpper && (b.isUpper || b.isDigit) && (c.isUpper || c.isDigit)
  | _ => false

/-- `parseSegment` (`parse.ts` 161-199): split on the field delimiter,
validate the name, number the remaining tokens from 1. -/
def parseSegment (segmentLine : Str) (delimiters : HL7Delimiters)
    (segmentIndex : Nat) : Except ParseError SegmentNode :=
  let parts := splitOnChar delimiters.field segmentLine
  match parts with
  | [] =>
    .error ⟨"Empty or invalid segment".toList, some segmentIndex, none, none,
      some (jsSubstring segmentLine 0 50)⟩
  | name :: restParts =>
    if name.length = 0 then
      .error ⟨"Empty or invalid segment".toList, some segmentIndex, none, none,
        some (jsSubstring segmentLine 0 50)⟩
    else if ¬ isValidSegName name then
      .error ⟨"Invalid segment name: \"".toList ++ name ++ "\"".toList,
        some segmentIndex, some name, none, some (jsSubstring segmentLine 0 50)⟩
    else
      .ok ⟨name, parseFieldsFrom restParts delimiters 1⟩

/-- The fail-fast loop of `parseHL7` (`parse.ts` 253-265) over the lines
after the header, numbered from `segmentIndex`. -/
def parseSegments (lines : List Str) (delimiters : HL7Delimiters)
    (segmentIndex : Nat) : Except ParseError (List SegmentNode) :=
  match lines with
  | [] => .ok []
  | line :: rest =>
    match parseSegment line delimiters segmentIndex with
    | .error e => .error e
    | .ok seg =>
      match parseSegments rest delimiters (segmentIndex + 1) with
      | .error e => .error e
      | .ok segs => .ok (seg :: segs)

/-- The segment lines of `parseHL7` (`parse.ts` 207-210): trim, normalize
line endings, split on `'\r'`, drop empty lines. -/
def segLines (rawInput : Str) : List Str :=
  (splitOnChar '\r' (normalizeLineEndings (jsTrim rawInput))).filter
    (fun line => 0 < line.length)

/-- `parseHL7` (`parse.ts` 205-274). -/
def parseHL7 (rawInput : Str) : Except ParseError HL7Message :=
  match segLines rawInput with
  | [] => .error ⟨"No segments found in input".toList, none, none, none, none⟩
  | firstLine :: restLines =>
    if "MSH".toList.isPrefixOf firstLine then
      match extractDelimiters firstLine with
      | none =>
        .error ⟨"Could not extract delimiters from MSH segment".toList, some 0,
          some "MSH".toList, none, some (jsSubstring firstLine 0 50)⟩
      | some delimiters =>
        match parseSegments restLines delimiters 1 with
        | .error e => .error e
        | .ok segs => .ok ⟨delimiters, parseMSHSegment firstLine delimiters :: segs⟩
    else
      .error ⟨"HL7 message must start with MSH segment".toList, none, none, none,
        some (jsSubstring firstLine 0 50)⟩

/-- `parseFieldString` (`parse.ts` 279-285). -/
def parseFieldString (fieldString : Str) (delimiters : HL7Delimiters)
    (fieldIndex : Nat) : FieldNode :=
  parseField fieldString delimiters fieldIndex

/-!
## Serializer (`src/hl7/serialize.ts`)
-/

/-- `serializeSubcomponents` (`serialize.ts` 19-24). -/
def serializeSubcomponents (components : ComponentNode) (delimiters : HL7Delimiters) :
    Str :=
  joinSep delimiters.subcomponent (components.subcomponents.map (fun sub => sub.value))

/-- `serializeComponents` (`serialize.ts` 29-36). -/
def serializeComponents (r : RepeatNode) (delimiters : HL7Delimiters) : Str :=
  joinSep delimiters.component (r.components.map (fun comp => serializeSubcomponents comp delimiters))

/-- `serializeRepeats` (`serialize.ts` 41-48). -/
def serializeRepeats (field : FieldNode) (delimiters : HL7Delimiters) : Str :=
  joinSep delimiters.rep (field.repeats.map (fun rep => serializeComponents rep delimiters))

/-- `serializeField` (`serialize.ts` 53-58). -/
def serializeField (field : FieldNode) (delimiters : HL7Delimiters) : Str :=
  serializeRepeats field delimiters

/-- Stable insertion of a field into a list sorted by `index`; together with
`sortFields` this models the stable `Array.prototype.sort((a, b) => a.index - b.index)`. -/
def insertFieldSorted (f : FieldNode) : List FieldNode → List FieldNode
  | [] => [f]
  | g :: gs => if f.index ≤ g.index then f :: g :: gs else g :: insertFieldSorted f gs

/-- Stable sort of fields by ascending `index` (JS `sort((a, b) => a.index - b.index)`). -/
def sortFields : List FieldNode → List FieldNode
  | [] => []
  | f :: fs => insertFieldSorted f (sortFields fs)

/-- The field-emission loop shared by `serializeSegment` and
`serializeMSHSegment` (`serialize.ts` 87-95, 114-122): for each field in
order, bare field delimiters pad the index gap from `lastIndex`, then the
field delimiter and the serialized value are emitted. -/
def emitFields (fields : List FieldNode) (delimiters : HL7Delimiters)
    (lastIndex : Nat) : Str :=
  match fields with
  | [] => []
  | f :: rest =>
    List.replicate (f.index - (lastIndex + 1)) delimiters.field ++
      delimiters.field :: (serializeField f delimiters ++ emitFields rest delimiters f.index)

/-- `serializeMSHSegment` (`serialize.ts` 64-98). -/
def serializeMSHSegment (segment : SegmentNode) (delimiters : HL7Delimiters) : Str :=
  let msh2Field := segment.fields.find? (fun f => f.index = 2)
  let encPart :=
    match msh2Field with
    | some f => serializeField f delimiters
    | none => [delimiters.component, delimiters.rep, delimiters.escape, delimiters.subcomponent]
  let otherFields := sortFields (segment.fields.filter (fun f => 2 < f.index))
  "MSH".toList ++ delimiters.field :: (encPart ++ emitFields otherFields delimiters 2)

/-- `serializeSegment` (`serialize.ts` 103-125). -/
def serializeSegment (segment : SegmentNode) (delimiters : HL7Delimiters) : Str :=
  segment.name ++ emitFields (sortFields segment.fields) delimiters 0

/-- The `segments.map((segment, index) => ...)` of `serializeHL7`
(`serialize.ts` 138-143). -/
def serializeSegmentsList (segments : List SegmentNode) (delimiters : HL7Delimiters)
    (index : Nat) : List Str :=
  match segments with
  | [] => []
  | seg :: rest =>
    (if seg.name = "MSH".toList ∧ index = 0 then serializeMSHSegment seg delimiters
     else serializeSegment seg delimiters)
      :: serializeSegmentsList rest delimiters (index + 1)

/-- `serializeHL7` (`serialize.ts` 134-148). -/
def serializeHL7 (message : HL7Message) (includeTrailingTerminator : Bool) : Str :=
  let result := joinSep message.delimiters.segment
    (serializeSegmentsList message.segments message.delimiters 0)
  if includeTrailingTerminator then result ++ [message.delimiters.segment] else result

/-!
## Field re-parse helpers (`src/hl7/fieldReparse.ts`)
-/

/-- `reparseFieldFromString` (`fieldReparse.ts` 16-22). -/
def reparseFieldFromString (fieldString : Str) (delimiters : HL7Delimiters)
    (fieldIndex : Nat) : FieldNode :=
  parseFieldString fieldString delimiters fieldIndex

/-- `containsDelimiters` (`fieldReparse.ts` 27-36). -/
def containsDelimiters (value : Str) (delimiters : HL7Delimiters) : Bool :=
  value.contains delimiters.rep || value.contains delimiters.component ||
    value.contains delimiters.subcomponent

/-- `createSimpleField` (`fieldReparse.ts` 51-60): one repeat, one component,
one subcomponent holding `value`. -/
def createSimpleField (value : Str) (fieldIndex : Nat) : FieldNode :=
  ⟨fieldIndex, [⟨[⟨[⟨value⟩]⟩]⟩]⟩

/-!
## Claim-side constructions and concrete witness data
-/

/-- The text transform of replacing every carriage return by a line feed
(used by the line-ending-tolerance property). -/
def mapCR2LF (s : Str) : Str := s.map (fun c => if c = '\r' then '\n' else c)

/-- The text transform of replacing every carriage return by CR LF
(used by the line-ending-tolerance property). -/
def expandCRLF : Str → Str
  | [] => []
  | c :: rest =>
    if c = '\r' then '\r' :: '\n' :: expandCRLF rest else c :: expandCRLF rest

/-- Mirror image of `expandCRLF`: every carriage return becomes LF CR.
Auxiliary device for reasoning about `expandCRLF` on reversed strings. -/
def revExpandCRLF : Str → Str
  | [] => []
  | c :: rest =>
    if c = '\r' then '\n' :: '\r' :: revExpandCRLF rest else c :: revExpandCRLF rest

/-- The standard HL7 delimiters, used for concrete witness inputs. -/
def stdDelims : HL7Delimiters := ⟨'\r', '|', '~', '^', '&', '\\'⟩

/-- The message that `parseHL7` returns on the witness input
`MSH|^~\&|A\rPID|1`. -/
def witnessMsgA : HL7Message :=
  ⟨stdDelims,
   [⟨"MSH".toList,
     [⟨1, [⟨[⟨[⟨"|".toList⟩]⟩]⟩]⟩,
      ⟨2, [⟨[⟨[⟨"^~\\&".toList⟩]⟩]⟩]⟩,
      ⟨3, [⟨[⟨[⟨"A".toList⟩]⟩]⟩]⟩]⟩,
    ⟨"PID".toList, [⟨1, [⟨[⟨[⟨"1".toList⟩]⟩]⟩]⟩]⟩]⟩

/-- The message that `parseHL7` returns on `MSH|^~\&|A\rPID`: its second
segment has an empty field list. -/
def fieldlessSegMsg : HL7Message :=
  ⟨stdDelims,
   [⟨"MSH".toList,
     [⟨1, [⟨[⟨[⟨"|".toList⟩]⟩]⟩]⟩,
      ⟨2, [⟨[⟨[⟨"^~\\&".toList⟩]⟩]⟩]⟩,
      ⟨3, [⟨[⟨[⟨"A".toList⟩]⟩]⟩]⟩]⟩,
    ⟨"PID".toList, []⟩]⟩

/-- The token sequence that gap-padded field emission denotes: before each
field's serialized value, one bare (empty) field token per skipped index
between the previously emitted index and the field's index. -/
def gapTokens (d : HL7Delimiters) : Nat → List FieldNode → List Str
  | _, [] => []
  | last, f :: fs =>
    List.replicate (f.index - (last + 1)) [] ++
      serializeField f d :: gapTokens d f.index fs

/-- A concrete two-field segment, given out of index order, used as witness
input for the gap-padding claim. -/
def gapWitnessSeg : SegmentNode :=
  ⟨"PID".toList, [createSimpleField "B".toList 5, createSimpleField "A".toList 2]⟩

/-!
## Basic facts about the string primitives
-/

theorem splitOnChar_ne_nil (c : Char) (s : Str) : splitOnChar c s ≠ [] := by
  induction s with
  | nil => simp [splitOnChar]
  | cons a s ih =>
    cases h : splitOnChar c s with
    | nil => exact absurd h ih
    | cons p t => simp only [splitOnChar, h]; split <;> simp

theorem splitOnChar_cons_of_cons (c a : Char) (s q : Str) (t : List Str)
    (h : splitOnChar c s = q :: t) :
    splitOnChar c (a :: s) = if a = c then [] :: q :: t else (a :: q) :: t := by
  simp only [splitOnChar, h]

theorem joinSep_cons_of_ne_nil (c : Char) (p : Str) (ls : List Str) (h : ls ≠ []) :
    joinSep c (p :: ls) = p ++ c :: joinSep c ls := by
  cases ls with
  | nil => exact absurd rfl h
  | cons q rest => simp [joinSep]

theorem joinSep_splitOnChar (c : Char) (s : Str) :
    joinSep c (splitOnChar c s) = s := by
  induction s with
  | nil => rfl
  | cons a s ih =>
    cases h : splitOnChar c s with
    | nil => exact absurd h (splitOnChar_ne_nil c s)
    | cons p t =>
      rw [h] at ih
      rw [splitOnChar_cons_of_cons c a s p t h]
      by_cases hac : a = c
      · subst hac
        rw [if_pos rfl, joinSep_cons_of_ne_nil _ _ _ (by simp), List.nil_append, ih]
      · rw [if_neg hac]
        cases t with
        | nil => simpa [joinSep] using congrArg (a :: ·) ih
        | cons u t' =>
          simp only [joinSep, List.cons_append] at ih ⊢
          rw [ih]

theorem not_mem_of_mem_splitOnChar (c : Char) (s p : Str)
    (hp : p ∈ splitOnChar c s) : c ∉ p := by
  induction s generalizing p with
  | nil =>
    simp only [splitOnChar, List.mem_singleton] at hp
    subst hp; simp
  | cons a s ih =>
    cases h : splitOnChar c s with
    | nil => exact absurd h (splitOnChar_ne_nil c s)
    | cons q t =>
      rw [splitOnChar_cons_of_cons c a s q t h] at hp
      by_cases hac : a = c
      · rw [if_pos hac] at hp
        cases List.mem_cons.mp hp with
        | inl h0 => subst h0; simp
        | inr h1 => exact ih p (h ▸ h1)
      · rw [if_neg hac] at hp
        cases List.mem_cons.mp hp with
        | inl h0 =>
          subst h0
          intro hmem
          cases List.mem_cons.mp hmem with
          | inl h2 => exact hac h2.symm
          | inr h2 => exact ih q (h ▸ List.mem_cons_self q t) h2
        | inr h1 => exact ih p (h ▸ List.mem_cons.mpr (Or.inr h1))

theorem mem_of_mem_splitOnChar (c : Char) (s p : Str) (a : Char)
    (hp : p ∈ splitOnChar c s) (ha : a ∈ p) : a ∈ s := by
  induction s generalizing p with
  | nil =>
    simp only [splitOnChar, List.mem_singleton] at hp
    subst hp; simp at ha
  | cons b s ih =>
    cases h : splitOnChar c s with
    | nil => exact absurd h (splitOnChar_ne_nil c s)
    | cons q t =>
      rw [splitOnChar_cons_of_cons c b s q t h] at hp
      by_cases hbc : b = c
      · rw [if_pos hbc] at hp
        cases List.mem_cons.mp hp with
        | inl h0 => subst h0; simp at ha
        | inr h1 => exact List.mem_cons.mpr (Or.inr (ih p (h ▸ h1) ha))
      · rw [if_neg hbc] at hp
        cases List.mem_cons.mp hp with
        | inl h0 =>
          subst h0
          cases List.mem_cons.mp ha with
          | inl h2 => subst h2; simp
          | inr h2 =>
            exact List.mem_cons.mpr
              (Or.inr (ih q (h ▸ List.mem_cons_self q t) h2))
        | inr h1 =>
          exact List.mem_cons.mpr
            (Or.inr (ih p (h ▸ List.mem_cons.mpr (Or.inr h1)) ha))

theorem splitOnChar_of_not_mem (c : Char) (s : Str) (h : c ∉ s) :
    splitOnChar c s = [s] := by
  induction s with
  | nil => rfl
  | cons a s ih =>
    have hac : a ≠ c := fun e => h (e ▸ List.mem_cons_self a s)
    have hcs : c ∉ s := fun e => h (List.mem_cons.mpr (Or.inr e))
    rw [splitOnChar_cons_of_cons c a s s [] (ih hcs), if_neg hac]

theorem splitOnChar_append_sep (c : Char) (p t : Str) (h : c ∉ p) :
    splitOnChar c (p ++ c :: t) = p :: splitOnChar c t := by
  induction p with
  | nil =>
    cases ht : splitOnChar c t with
    | nil => exact absurd ht (splitOnChar_ne_nil c t)
    | cons q r =>
      rw [List.nil_append, splitOnChar_cons_of_cons c c t q r ht, if_pos rfl]
  | cons a p' ih =>
    have hac : a ≠ c := fun e => h (e ▸ List.mem_cons_self a p')
    have hcp : c ∉ p' := fun e => h (List.mem_cons.mpr (Or.inr e))
    rw [List.cons_append,
      splitOnChar_cons_of_cons c a (p' ++ c :: t) p' (splitOnChar c t) (ih hcp),
      if_neg hac]

theorem splitOnChar_joinSep (c : Char) (ls : List Str) (hne : ls ≠ [])
    (h : ∀ p ∈ ls, c ∉ p) : splitOnChar c (joinSep c ls) = ls := by
  induction ls with
  | nil => exact absurd rfl hne
  | cons p rest ih =>
    cases rest with
    | nil =>
      simp only [joinSep]
      exact splitOnChar_of_not_mem c p (h p (List.mem_cons_self p []))
    | cons q rest' =>
      rw [joinSep_cons_of_ne_nil _ _ _ (by simp),
        splitOnChar_append_sep c p _ (h p (List.mem_cons_self p _)),
        ih (by simp) (fun r hr => h r (List.mem_cons.mpr (Or.inr hr)))]

/-!
## Field-level round trip
-/

theorem serializeSubcomponents_parse (t : Str) (d : HL7Delimiters) :
    serializeSubcomponents
      ⟨(splitOnChar d.subcomponent t).map (fun subStr => ⟨subStr⟩)⟩ d = t := by
  unfold serializeSubcomponents
  simp only [List.map_map]
  have h : ((fun (sub : SubcomponentNode) => sub.value) ∘
      fun subStr => (⟨subStr⟩ : SubcomponentNode)) = fun x => x := rfl
  rw [h, List.map_id', joinSep_splitOnChar]

theorem serializeComponents_parse (r : Str) (d : HL7Delimiters) :
    serializeComponents
      ⟨(splitOnChar d.component r).map (fun componentStr =>
        ⟨(splitOnChar d.subcomponent componentStr).map (fun subStr => ⟨subStr⟩)⟩)⟩ d
      = r := by
  unfold serializeComponents
  simp only [List.map_map, Function.comp_def]
  rw [List.map_congr_left (g := fun x => x)
    (fun a _ => serializeSubcomponents_parse a d), List.map_id', joinSep_splitOnChar]

theorem serializeField_parseField (s : Str) (d : HL7Delimiters) (i : Nat) :
    serializeField (parseField s d i) d = s := by
  unfold serializeField serializeRepeats parseField
  simp only [List.map_map, Function.comp_def]
  rw [List.map_congr_left (g := fun x => x)
    (fun a _ => serializeComponents_parse a d), List.map_id', joinSep_splitOnChar]

/-!
## Fields produced by the parser: indices and serializer loop
-/

theorem parseFieldsFrom_index_ge (pieces : List Str) (d : HL7Delimiters)
    (start : Nat) (f : FieldNode) (hf : f ∈ parseFieldsFrom pieces d start) :
    start ≤ f.index := by
  induction pieces generalizing start with
  | nil => simp [parseFieldsFrom] at hf
  | cons p ps ih =>
    simp only [parseFieldsFrom, List.mem_cons] at hf
    cases hf with
    | inl h => subst h; simp [parseField]
    | inr h => exact Nat.le_of_succ_le (ih (start + 1) h)

theorem parseFieldsFrom_pairwise (pieces : List Str) (d : HL7Delimiters)
    (start : Nat) :
    (parseFieldsFrom pieces d start).Pairwise (fun a b => a.index < b.index) := by
  induction pieces generalizing start with
  | nil => simp [parseFieldsFrom]
  | cons p ps ih =>
    simp only [parseFieldsFrom]
    refine List.Pairwise.cons ?_ (ih (start + 1))
    intro g hg
    have := parseFieldsFrom_index_ge ps d (start + 1) g hg
    simp only [parseField]
    omega

theorem sortFields_of_pairwise (fields : List FieldNode)
    (h : fields.Pairwise (fun a b => a.index < b.index)) :
    sortFields fields = fields := by
  induction fields with
  | nil => rfl
  | cons f fs ih =>
    have hrest := (List.pairwise_cons.mp h).2
    have hhead := (List.pairwise_cons.mp h).1
    simp only [sortFields, ih hrest]
    cases fs with
    | nil => rfl
    | cons g gs =>
      have : f.index ≤ g.index := Nat.le_of_lt (hhead g (List.mem_cons_self g gs))
      simp only [insertFieldSorted, if_pos this]

theorem emitFields_parseFieldsFrom (pieces : List Str) (d : HL7Delimiters)
    (last : Nat) :
    emitFields (parseFieldsFrom pieces d (last + 1)) d last =
      (match pieces with
       | [] => []
       | _ :: _ => d.field :: joinSep d.field pieces) := by
  induction pieces generalizing last with
  | nil => rfl
  | cons p ps ih =>
    simp only [parseFieldsFrom, emitFields, parseField]
    rw [Nat.sub_self, List.replicate_zero, List.nil_append]
    have hval : serializeField (parseField p d (last + 1)) d = p :=
      serializeField_parseField p d (last + 1)
    simp only [parseField] at hval
    rw [hval, ih (last + 1)]
    cases ps with
    | nil => simp [joinSep]
    | cons q qs => rw [joinSep_cons_of_ne_nil d.field p (q :: qs) (by simp)]

theorem emitFields_parseFieldsFrom' (pieces : List Str) (d : HL7Delimiters)
    (last start : Nat) (hs : start = last + 1) :
    emitFields (parseFieldsFrom pieces d start) d last =
      (match pieces with
       | [] => []
       | _ :: _ => d.field :: joinSep d.field pieces) := by
  subst hs; exact emitFields_parseFieldsFrom pieces d last

/-!
## `jsSubstring` and `idxOf?` arithmetic
-/

theorem jsSubstring_drop_of_eq (s : Str) (a : Int) (k : Nat) (hk : (k : Int) = a)
    (ha : k ≤ s.length) : jsSubstring s a s.length = s.drop k := by
  subst hk
  simp only [jsSubstring]
  have h1 : min (max ((k : Nat) : Int) 0) (s.length : Int) = k := by omega
  have h2 : min (max ((s.length : Int)) 0) (s.length : Int) = s.length := by omega
  rw [h1, h2]
  have h3 : max ((k : Nat) : Int) (s.length : Int) = s.length := by omega
  have h4 : min ((k : Nat) : Int) (s.length : Int) = k := by omega
  rw [h3, h4, Int.toNat_natCast, Int.toNat_natCast, List.take_length]

theorem jsSubstring_zero_take (s : Str) (b : Nat) :
    jsSubstring s 0 b = s.take b := by
  simp only [jsSubstring]
  have h1 : min (max (0 : Int) 0) (s.length : Int) = 0 := by omega
  have h2 : min (max ((b : Int)) 0) (s.length : Int) = min b s.length := by omega
  rw [h1, h2]
  have h3 : max (0 : Int) ((min b s.length : Nat) : Int) = ((min b s.length : Nat) : Int) := by
    omega
  have h4 : min (0 : Int) ((min b s.length : Nat) : Int) = 0 := by omega
  rw [h3, h4, Int.toNat_natCast]
  simp only [Int.toNat_zero, List.drop_zero]
  rcases Nat.le_total b s.length with h | h
  · rw [Nat.min_eq_left h]
  · rw [Nat.min_eq_right h, List.take_length, List.take_of_length_le h]

theorem jsSubstring_window_of_eq (s : Str) (a b : Int) (ka kb : Nat)
    (hka : (ka : Int) = a) (hkb : (kb : Int) = b) (hab : ka ≤ kb)
    (hb : kb ≤ s.length) : jsSubstring s a b = (s.take kb).drop ka := by
  subst hka; subst hkb
  simp only [jsSubstring]
  have h1 : min (max ((ka : Nat) : Int) 0) (s.length : Int) = ka := by omega
  have h2 : min (max (((kb : Nat) : Int)) 0) (s.length : Int) = kb := by omega
  rw [h1, h2]
  have h3 : max ((ka : Nat) : Int) ((kb : Nat) : Int) = kb := by omega
  have h4 : min ((ka : Nat) : Int) ((kb : Nat) : Int) = ka := by omega
  rw [h3, h4, Int.toNat_natCast, Int.toNat_natCast]

theorem jsSubstring_neg_one_of_eq (s : Str) (a : Int) (k : Nat)
    (hk : (k : Int) = a) (ha : k ≤ s.length) :
    jsSubstring s a (-1) = s.take k := by
  subst hk
  simp only [jsSubstring]
  have h1 : min (max ((k : Nat) : Int) 0) (s.length : Int) = k := by omega
  have h2 : min (max ((-1 : Int)) 0) (s.length : Int) = 0 := by omega
  rw [h1, h2]
  have h3 : max ((k : Nat) : Int) (0 : Int) = k := by omega
  have h4 : min ((k : Nat) : Int) (0 : Int) = 0 := by omega
  rw [h3, h4, Int.toNat_natCast]
  simp only [Int.toNat_zero, List.drop_zero]

theorem idxOf?_none (c : Char) (s : Str) (h : idxOf? c s = none) : c ∉ s := by
  induction s with
  | nil => simp
  | cons a rest ih =>
    simp only [idxOf?] at h
    by_cases hac : a = c
    · rw [if_pos hac] at h; exact absurd h (by simp)
    · rw [if_neg hac] at h
      intro hmem
      cases List.mem_cons.mp hmem with
      | inl h0 => exact hac h0.symm
      | inr h0 =>
        cases hh : idxOf? c rest with
        | none => exact ih hh h0
        | some j => rw [hh] at h; exact absurd h (by simp)

theorem idxOf?_spec (c : Char) (s : Str) (i : Nat) (h : idxOf? c s = some i) :
    c ∉ s.take i ∧ s = s.take i ++ c :: s.drop (i + 1) := by
  induction s generalizing i with
  | nil => simp [idxOf?] at h
  | cons a rest ih =>
    simp only [idxOf?] at h
    by_cases hac : a = c
    · rw [if_pos hac] at h
      have : i = 0 := by simpa using h.symm
      subst this
      subst hac
      simp
    · rw [if_neg hac] at h
      cases hh : idxOf? c rest with
      | none => rw [hh] at h; exact absurd h (by simp)
      | some j =>
        rw [hh] at h
        have hij : i = j + 1 := by simpa using h.symm
        subst hij
        obtain ⟨h1, h2⟩ := ih j hh
        constructor
        · intro hmem
          simp only [List.take_succ_cons] at hmem
          cases List.mem_cons.mp hmem with
          | inl h0 => exact hac h0.symm
          | inr h0 => exact h1 h0
        · simp only [List.take_succ_cons, List.drop_succ_cons, List.cons_append]
          exact congrArg (a :: ·) h2

theorem idxOf?_lt_length (c : Char) (s : Str) (i : Nat) (h : idxOf? c s = some i) :
    i < s.length := by
  obtain ⟨-, h2⟩ := idxOf?_spec c s i h
  by_contra hge
  push_neg at hge
  rw [List.take_of_length_le hge] at h2
  have := congrArg List.length h2
  simp at this

/-!
## Header decomposition and the per-line serialize-parse identities
-/

theorem extractDelimiters_inv (l : Str) (d : HL7Delimiters)
    (h : extractDelimiters l = some d) :
    "MSH".toList.isPrefixOf l = true ∧ 8 ≤ l.length ∧ d.field = charAt l 3 ∧
      d.segment = '\r' := by
  simp only [extractDelimiters] at h
  by_cases h1 : ¬ ("MSH".toList.isPrefixOf l) ∨ l.length < 8
  · rw [if_pos h1] at h; exact absurd h (by simp)
  · rw [if_neg h1] at h
    push_neg at h1
    refine ⟨by simpa using h1.1, by omega, ?_⟩
    split at h <;> (injection h with h; subst h; exact ⟨rfl, rfl⟩)

theorem header_decomp (l : Str) (hp : "MSH".toList.isPrefixOf l = true)
    (hl : 8 ≤ l.length) :
    ∃ rest : Str, l = 'M' :: 'S' :: 'H' :: charAt l 3 :: rest ∧
      4 + rest.length = l.length := by
  have hpre : "MSH".toList <+: l := List.isPrefixOf_iff_prefix.mp hp
  obtain ⟨t, ht⟩ := hpre
  cases t with
  | nil => rw [← ht] at hl; simp at hl
  | cons c rest =>
    subst ht
    exact ⟨rest, rfl, by simp; omega⟩

theorem serializeField_createSimpleField (v : Str) (i : Nat) (d : HL7Delimiters) :
    serializeField (createSimpleField v i) d = v := rfl

theorem serializeMSHSegment_parsed (enc : Str) (rest3 : List FieldNode)
    (d : HL7Delimiters) (h3 : ∀ f ∈ rest3, 2 < f.index)
    (hsort : sortFields rest3 = rest3) :
    serializeMSHSegment
      ⟨"MSH".toList, ⟨1, [⟨[⟨[⟨[d.field]⟩]⟩]⟩]⟩ :: ⟨2, [⟨[⟨[⟨enc⟩]⟩]⟩]⟩ :: rest3⟩ d
      = "MSH".toList ++ d.field :: (enc ++ emitFields rest3 d 2) := by
  have hfil : rest3.filter (fun f => 2 < f.index) = rest3 :=
    List.filter_eq_self.mpr (fun f hf => by simpa using h3 f hf)
  show "MSH".toList ++ d.field ::
      (serializeField (⟨2, [⟨[⟨[⟨enc⟩]⟩]⟩]⟩ : FieldNode) d ++
        emitFields (sortFields (rest3.filter (fun f => 2 < f.index))) d 2) = _
  rw [hfil, hsort]
  rfl

theorem emitFields_parseFieldsFrom_cons (q : Str) (qs : List Str)
    (d : HL7Delimiters) (last start : Nat) (hs : start = last + 1) :
    emitFields (parseFieldsFrom (q :: qs) d start) d last
      = d.field :: joinSep d.field (q :: qs) := by
  rw [emitFields_parseFieldsFrom' (q :: qs) d last start hs]

theorem serializeMSH_parseMSH (l : Str) (d : HL7Delimiters)
    (hp : "MSH".toList.isPrefixOf l = true) (hl : 8 ≤ l.length)
    (hfd : d.field = charAt l 3) :
    serializeMSHSegment (parseMSHSegment l d) d = l := by
  obtain ⟨rest, hdec, hlen⟩ := header_decomp l hp hl
  have hafter : jsSubstring l 4 l.length = rest := by
    rw [jsSubstring_drop_of_eq l 4 4 (by norm_num) (by omega), hdec]
    simp
  cases hidx : idxOf? d.field rest with
  | none =>
    simp only [parseMSHSegment, hafter, hidx]
    rw [serializeMSHSegment_parsed rest [] d (by simp) rfl]
    simp only [emitFields, List.append_nil]
    rw [hfd]
    conv_rhs => rw [hdec]
    rfl
  | some p =>
    have hplt := idxOf?_lt_length d.field rest p hidx
    obtain ⟨hnotmem, hsplit⟩ := idxOf?_spec d.field rest p hidx
    have henc : jsSubstring rest 0 p = rest.take p := jsSubstring_zero_take rest p
    have hrem : jsSubstring rest ((p : Int) + 1) rest.length = rest.drop (p + 1) :=
      jsSubstring_drop_of_eq rest ((p : Int) + 1) (p + 1) (by push_cast; ring)
        (by omega)
    simp only [parseMSHSegment, hafter, hidx, henc, hrem]
    cases hps : splitOnChar d.field (rest.drop (p + 1)) with
    | nil => exact absurd hps (splitOnChar_ne_nil _ _)
    | cons q qs =>
      rw [serializeMSHSegment_parsed (rest.take p) (parseFieldsFrom (q :: qs) d 3) d
        (fun f hf => by have := parseFieldsFrom_index_ge (q :: qs) d 3 f hf; omega)
        (sortFields_of_pairwise _ (parseFieldsFrom_pairwise (q :: qs) d 3))]
      rw [emitFields_parseFieldsFrom_cons q qs d 2 3 rfl]
      rw [← hps, joinSep_splitOnChar]
      rw [← hsplit]
      rw [hfd]
      conv_rhs => rw [hdec]
      rfl

theorem serializeSegment_parseSegment (l : Str) (d : HL7Delimiters) (i : Nat)
    (seg : SegmentNode) (h : parseSegment l d i = .ok seg) :
    serializeSegment seg d = l := by
  cases hsp : splitOnChar d.field l with
  | nil => exact absurd hsp (splitOnChar_ne_nil _ _)
  | cons name restParts =>
    simp only [parseSegment, hsp] at h
    split at h
    · exact absurd h (by simp)
    · split at h
      · exact absurd h (by simp)
      · simp only [Except.ok.injEq] at h
        subst h
        unfold serializeSegment
        rw [sortFields_of_pairwise _ (parseFieldsFrom_pairwise restParts d 1)]
        have hl : l = joinSep d.field (name :: restParts) := by
          rw [← hsp, joinSep_splitOnChar]
        cases restParts with
        | nil =>
          simp only [parseFieldsFrom, emitFields, List.append_nil]
          rw [hl]; rfl
        | cons q qs =>
          rw [emitFields_parseFieldsFrom_cons q qs d 0 1 rfl, hl]
          conv_rhs => rw [joinSep_cons_of_ne_nil d.field name (q :: qs) (by simp)]

theorem serializeSegmentsList_parseSegments (lines : List Str)
    (d : HL7Delimiters) (i : Nat) (segs : List SegmentNode) (j : Nat)
    (hj : 1 ≤ j) (h : parseSegments lines d i = .ok segs) :
    serializeSegmentsList segs d j = lines := by
  induction lines generalizing i segs j with
  | nil =>
    simp only [parseSegments, Except.ok.injEq] at h
    subst h; rfl
  | cons line restL ih =>
    cases hseg : parseSegment line d i with
    | error e =>
      simp only [parseSegments, hseg] at h
      exact absurd h (by simp)
    | ok seg =>
      cases hrest : parseSegments restL d (i + 1) with
      | error e =>
        simp only [parseSegments, hseg, hrest] at h
        exact absurd h (by simp)
      | ok segs' =>
        simp only [parseSegments, hseg, hrest, Except.ok.injEq] at h
        subst h
        simp only [serializeSegmentsList]
        rw [if_neg (fun hand => by omega)]
        rw [serializeSegment_parseSegment line d i seg hseg]
        rw [ih (i + 1) segs' (j + 1) (by omega) hrest]

/-!
## Line-ending normalization and trimming facts
-/

theorem getLast?_cons_of_ne {α : Type} (a : α) (l : List α) (h : l ≠ []) :
    (a :: l).getLast? = l.getLast? := by
  cases l with
  | nil => exact absurd rfl h
  | cons b t => exact List.getLast?_cons_cons

theorem normCRLF_eq_nil_iff : ∀ s : Str, normCRLF s = [] ↔ s = []
  | [] => by simp [normCRLF]
  | [c] => by simp [normCRLF]
  | a :: b :: rest => by
    rw [normCRLF]
    by_cases hab : a = '\r' ∧ b = '\n'
    · rw [if_pos hab]; simp
    · rw [if_neg hab]; simp

theorem normCRLF_getLast? : ∀ (s : Str) (c : Char), c ≠ '\n' →
    s.getLast? = some c → (normCRLF s).getLast? = some c
  | [], c, _, h => by simp at h
  | [a], c, _, h => by simpa [normCRLF] using h
  | a :: b :: rest, c, hc, h => by
    rw [normCRLF]
    by_cases hab : a = '\r' ∧ b = '\n'
    · rw [if_pos hab]
      by_cases hrest : rest = []
      · subst hrest
        rw [List.getLast?_cons_cons] at h
        simp only [List.getLast?_singleton, Option.some.injEq] at h
        exact absurd (h ▸ hab.2) hc
      · have hlast : rest.getLast? = some c := by
          rw [List.getLast?_cons_cons, getLast?_cons_of_ne b rest hrest] at h
          exact h
        have ih := normCRLF_getLast? rest c hc hlast
        have hnn : normCRLF rest ≠ [] := by
          intro he
          rw [(normCRLF_eq_nil_iff rest).mp he] at hlast
          simp at hlast
        rw [getLast?_cons_of_ne '\r' (normCRLF rest) hnn]
        exact ih
    · rw [if_neg hab]
      have h' : (b :: rest).getLast? = some c := by
        rw [List.getLast?_cons_cons] at h
        exact h
      have ih := normCRLF_getLast? (b :: rest) c hc h'
      have hnn : normCRLF (b :: rest) ≠ [] := by
        intro he
        rw [(normCRLF_eq_nil_iff (b :: rest)).mp he] at h'
        simp at h'
      rw [getLast?_cons_of_ne a (normCRLF (b :: rest)) hnn]
      exact ih

theorem normCRLF_of_no_lf : ∀ s : Str, '\n' ∉ s → normCRLF s = s
  | [], _ => rfl
  | [c], _ => rfl
  | a :: b :: rest, h => by
    have hb : b ≠ '\n' := fun e => h (by simp [e])
    have hrest : '\n' ∉ b :: rest := fun e => h (List.mem_cons.mpr (Or.inr e))
    rw [normCRLF, if_neg (fun hab => hb hab.2), normCRLF_of_no_lf (b :: rest) hrest]

theorem normLF_of_no_lf (s : Str) (h : '\n' ∉ s) : normLF s = s := by
  unfold normLF
  rw [List.map_congr_left (g := fun c => c) (fun a ha => by
    simp only [if_neg (fun e : a = '\n' => h (e ▸ ha))]), List.map_id']

theorem normLF_no_lf (s : Str) : '\n' ∉ normLF s := by
  unfold normLF
  intro hmem
  obtain ⟨x, -, hx⟩ := List.mem_map.mp hmem
  by_cases hxn : x = '\n'
  · rw [if_pos hxn] at hx; exact absurd hx (by decide)
  · rw [if_neg hxn] at hx; exact hxn hx

theorem normLF_getLast? (s : Str) (c : Char) (hc : c ≠ '\n')
    (h : s.getLast? = some c) : (normLF s).getLast? = some c := by
  unfold normLF
  rw [List.getLast?_map, h]
  show some (if c = '\n' then '\r' else c) = some c
  rw [if_neg hc]

theorem dropWhile_eq_self_of_head {p : Char → Bool} (l : Str)
    (h : ∀ c, l.head? = some c → p c = false) : l.dropWhile p = l := by
  cases l with
  | nil => rfl
  | cons a t => rw [List.dropWhile_cons, if_neg (by simp [h a rfl])]

theorem jsTrim_eq_self (X : Str)
    (h1 : ∀ c, X.head? = some c → isJsWs c = false)
    (h2 : ∀ c, X.getLast? = some c → isJsWs c = false) : jsTrim X = X := by
  unfold jsTrim trimFront
  rw [dropWhile_eq_self_of_head X h1]
  rw [dropWhile_eq_self_of_head X.reverse
    (fun c hcc => h2 c (by rwa [List.head?_reverse] at hcc))]
  exact List.reverse_reverse X

theorem jsTrim_append_cr (X : Str)
    (h1 : ∀ c, X.head? = some c → isJsWs c = false)
    (h2 : ∀ c, X.getLast? = some c → isJsWs c = false)
    (hne : X ≠ []) : jsTrim (X ++ ['\r']) = X := by
  unfold jsTrim trimFront
  have hfront : (X ++ ['\r']).dropWhile isJsWs = X ++ ['\r'] := by
    apply dropWhile_eq_self_of_head
    intro c hc
    rw [List.head?_append] at hc
    cases hX : X.head? with
    | none => exact absurd (List.head?_eq_none_iff.mp hX) hne
    | some x =>
      rw [hX] at hc
      simp only [Option.or_some, Option.some.injEq] at hc
      exact hc ▸ h1 x hX
  rw [hfront, List.reverse_append]
  show ((['\r'].reverse ++ X.reverse).dropWhile isJsWs).reverse = X
  simp only [List.reverse_singleton, List.singleton_append]
  rw [List.dropWhile_cons, if_pos (by decide)]
  rw [dropWhile_eq_self_of_head X.reverse
    (fun c hcc => h2 c (by rwa [List.head?_reverse] at hcc))]
  exact List.reverse_reverse X

/-!
## Heads and last elements of joined line lists
-/

theorem head?_joinSep (c : Char) (l : Str) (ls : List Str) (hl : l ≠ []) :
    (joinSep c (l :: ls)).head? = l.head? := by
  cases ls with
  | nil => rfl
  | cons q rest =>
    rw [joinSep_cons_of_ne_nil c l (q :: rest) (by simp), List.head?_append]
    cases hX : l.head? with
    | none => exact absurd (List.head?_eq_none_iff.mp hX) hl
    | some x => simp

theorem joinSep_concat_getLast? (c : Char) : ∀ (P : List Str) (l : Str),
    l ≠ [] → (joinSep c (P ++ [l])).getLast? = l.getLast?
  | [], l, hl => by rw [List.nil_append]; rfl
  | p :: P', l, hl => by
    have hne : P' ++ [l] ≠ [] := by simp
    rw [List.cons_append, joinSep_cons_of_ne_nil c p (P' ++ [l]) hne,
      List.getLast?_append]
    have ih := joinSep_concat_getLast? c P' l hl
    have hJ : (c :: joinSep c (P' ++ [l])).getLast? = l.getLast? := by
      have hJne : joinSep c (P' ++ [l]) ≠ [] := by
        intro he
        rw [he] at ih
        rw [List.getLast?_eq_none_iff.mpr rfl] at ih   
        exact absurd ih.symm (by simp [List.getLast?_eq_none_iff, hl])
      rw [getLast?_cons_of_ne c _ hJne, ih]
    rw [hJ]
    cases hX : l.getLast? with
    | none => exact absurd (List.getLast?_eq_none_iff.mp hX) hl
    | some x => simp

theorem joinSep_concat_nil_getLast? (c : Char) : ∀ (P : List Str), P ≠ [] →
    (joinSep c (P ++ [[]])).getLast? = some c
  | [], h => absurd rfl h
  | p :: P', _ => by
    have hne : P' ++ [[]] ≠ [] := by simp
    rw [List.cons_append, joinSep_cons_of_ne_nil c p (P' ++ [[]]) hne,
      List.getLast?_append]
    cases hP : P' with
    | nil => simp [joinSep]
    | cons q Q =>
      have ih := joinSep_concat_nil_getLast? c (q :: Q) (by simp)
      have hJne : joinSep c ((q :: Q) ++ [[]]) ≠ [] := by
        intro he
        rw [he] at ih
        simp at ih
      rw [getLast?_cons_of_ne c _ hJne, ih]
      simp

theorem head?_dropWhile_not {p : Char → Bool} : ∀ (l : Str) (c : Char),
    (l.dropWhile p).head? = some c → p c = false
  | [], c, h => by simp at h
  | a :: t, c, h => by
    rw [List.dropWhile_cons] at h
    by_cases hpa : p a = true
    · rw [if_pos hpa] at h
      exact head?_dropWhile_not t c h
    · rw [if_neg hpa] at h
      simp only [List.head?_cons, Option.some.injEq] at h
      subst h
      exact Bool.not_eq_true _ ▸ hpa

theorem jsTrim_getLast_not_ws (s : Str) (c : Char)
    (h : (jsTrim s).getLast? = some c) : isJsWs c = false := by
  unfold jsTrim at h
  rw [List.getLast?_reverse] at h
  exact head?_dropWhile_not _ c h

theorem mem_joinSep (c a : Char) : ∀ (ls : List Str), a ∈ joinSep c ls →
    a = c ∨ ∃ l ∈ ls, a ∈ l
  | [], h => by simp [joinSep] at h
  | [l], h => Or.inr ⟨l, by simp, by simpa [joinSep] using h⟩
  | l :: t :: rest, h => by
    rw [joinSep_cons_of_ne_nil c l (t :: rest) (by simp)] at h
    rcases List.mem_append.mp h with h1 | h2
    · exact Or.inr ⟨l, by simp, h1⟩
    · rcases List.mem_cons.mp h2 with h0 | h3
      · exact Or.inl h0
      · rcases mem_joinSep c a (t :: rest) h3 with h4 | ⟨l', hl', hal'⟩
        · exact Or.inl h4
        · exact Or.inr ⟨l', List.mem_cons.mpr (Or.inr hl'), hal'⟩

theorem parseMSHSegment_name (l : Str) (d : HL7Delimiters) :
    (parseMSHSegment l d).name = "MSH".toList := by
  cases hidx : idxOf? d.field (jsSubstring l 4 l.length) <;>
    simp only [parseMSHSegment, hidx]

/-!
## Inversion of a successful parse and the shape of the serializer output
-/

theorem parseHL7_ok_inv (T : Str) (M : HL7Message) (h : parseHL7 T = .ok M) :
    ∃ firstLine restLines d segs,
      segLines T = firstLine :: restLines ∧
      "MSH".toList.isPrefixOf firstLine = true ∧
      extractDelimiters firstLine = some d ∧
      parseSegments restLines d 1 = .ok segs ∧
      M = ⟨d, parseMSHSegment firstLine d :: segs⟩ := by
  cases hsl : segLines T with
  | nil =>
    simp only [parseHL7, hsl] at h
    exact absurd h (by simp)
  | cons firstLine restLines =>
    simp only [parseHL7, hsl] at h
    by_cases hpre : "MSH".toList.isPrefixOf firstLine = true
    · rw [if_pos hpre] at h
      cases hext : extractDelimiters firstLine with
      | none =>
        simp only [hext] at h
        exact absurd h (by simp)
      | some d =>
        simp only [hext] at h
        cases hps : parseSegments restLines d 1 with
        | error e =>
          simp only [hps] at h
          exact absurd h (by simp)
        | ok segs =>
          simp only [hps, Except.ok.injEq] at h
          exact ⟨firstLine, restLines, d, segs, rfl, hpre, hext, hps, h.symm⟩
    · rw [if_neg hpre] at h
      exact absurd h (by simp)

theorem serializeHL7_of_parse (T : Str) (M : HL7Message)
    (h : parseHL7 T = .ok M) :
    serializeHL7 M true = joinSep '\r' (segLines T) ++ ['\r'] := by
  obtain ⟨first, rest, d, segs, hsl, hpre, hext, hps, hM⟩ := parseHL7_ok_inv T M h
  obtain ⟨hpre', hlen, hfd, hsegd⟩ := extractDelimiters_inv first d hext
  subst hM
  have h0 : serializeSegmentsList (parseMSHSegment first d :: segs) d 0
      = first :: rest := by
    simp only [serializeSegmentsList]
    rw [if_pos (by simp [parseMSHSegment_name])]
    rw [serializeMSH_parseMSH first d hpre' hlen hfd]
    rw [serializeSegmentsList_parseSegments rest d 1 segs 1 le_rfl hps]
  rw [show serializeHL7 ⟨d, parseMSHSegment first d :: segs⟩ true
      = joinSep d.segment
          (serializeSegmentsList (parseMSHSegment first d :: segs) d 0) ++
          [d.segment] from rfl]
  rw [h0, hsegd, hsl]

theorem segLines_mem_spec (T : Str) (l : Str) (hl : l ∈ segLines T) :
    l ≠ [] ∧ '\r' ∉ l ∧ '\n' ∉ l := by
  unfold segLines at hl
  obtain ⟨hmem, hlen⟩ := List.mem_filter.mp hl
  simp only [decide_eq_true_eq] at hlen
  refine ⟨?_, not_mem_of_mem_splitOnChar _ _ _ hmem, ?_⟩
  · intro he; subst he; simp at hlen
  · intro hn
    have := mem_of_mem_splitOnChar '\r' _ l '\n' hmem hn
    unfold normalizeLineEndings at this
    exact normLF_no_lf _ this

theorem segLines_last_not_ws (T : Str) (first : Str) (restL : List Str)
    (hsl : segLines T = first :: restL) :
    ∃ c, (joinSep '\r' (first :: restL)).getLast? = some c ∧
      isJsWs c = false := by
  have hNne : normalizeLineEndings (jsTrim T) ≠ [] := by
    intro hN
    unfold segLines at hsl
    rw [hN] at hsl
    simp [splitOnChar, List.filter] at hsl
  have hTne : jsTrim T ≠ [] := by
    intro hT
    apply hNne
    unfold normalizeLineEndings
    rw [hT]
    rfl
  obtain ⟨c0, hc0⟩ : ∃ c0, (jsTrim T).getLast? = some c0 := by
    cases hg : (jsTrim T).getLast? with
    | none => exact absurd (List.getLast?_eq_none_iff.mp hg) hTne
    | some c0 => exact ⟨c0, rfl⟩
  have hc0ws : isJsWs c0 = false := jsTrim_getLast_not_ws T c0 hc0
  have hc0n : c0 ≠ '\n' := by
    intro he; subst he; exact absurd hc0ws (by decide)
  have hc0r : c0 ≠ '\r' := by
    intro he; subst he; exact absurd hc0ws (by decide)
  have hN : (normalizeLineEndings (jsTrim T)).getLast? = some c0 := by
    unfold normalizeLineEndings
    exact normLF_getLast? _ c0 hc0n (normCRLF_getLast? _ c0 hc0n hc0)
  set N := normalizeLineEndings (jsTrim T) with hNdef
  have hpieces_ne : splitOnChar '\r' N ≠ [] := splitOnChar_ne_nil '\r' N
  rcases List.eq_nil_or_concat (splitOnChar '\r' N) with h0 | ⟨P, Lp, hPL⟩
  · exact absurd h0 hpieces_ne
  rw [List.concat_eq_append] at hPL
  have hNjoin : joinSep '\r' (P ++ [Lp]) = N := by
    rw [← hPL]; exact joinSep_splitOnChar '\r' N
  have hLpne : Lp ≠ [] := by
    intro hLp
    subst hLp
    cases hP : P with
    | nil =>
      rw [hP] at hNjoin
      simp only [List.nil_append] at hNjoin
      have : N = [] := by rw [← hNjoin]; rfl
      exact hNne this
    | cons p0 P' =>
      have := joinSep_concat_nil_getLast? '\r' P (by rw [hP]; simp)
      rw [hNjoin, hN] at this
      exact hc0r (Option.some.inj this)
  have hlastLp : Lp.getLast? = some c0 := by
    have := joinSep_concat_getLast? '\r' P Lp hLpne
    rw [hNjoin, hN] at this
    exact this.symm
  have hfilter : segLines T = P.filter (fun line => 0 < line.length) ++ [Lp] := by
    unfold segLines
    rw [← hNdef, hPL, List.filter_append]
    congr 1
    have : (0 : Nat) < Lp.length := List.length_pos.mpr hLpne
    simp [this]
  refine ⟨c0, ?_, hc0ws⟩
  rw [← hsl, hfilter]
  rw [joinSep_concat_getLast? '\r' _ Lp hLpne, hlastLp]

/-- C1: Round-trip idempotence — for every input text `T` such that
`parseHL7 T` succeeds with message `M`, `parseHL7 (serializeHL7 M)` also
succeeds and returns a message structurally equal to `M` (same delimiters
record, same segments in order with the same names, fields, repeats,
components, subcomponents and leaf values). -/
theorem parseHL7_serializeHL7_roundtrip (T : Str) (M : HL7Message)
    (h : parseHL7 T = .ok M) : parseHL7 (serializeHL7 M true) = .ok M := by
  obtain ⟨first, restL, d, segs, hsl, hpre, hext, hps, hM⟩ := parseHL7_ok_inv T M h
  have hser : serializeHL7 M true = joinSep '\r' (first :: restL) ++ ['\r'] := by
    rw [serializeHL7_of_parse T M h, hsl]
  have hmem : ∀ l ∈ first :: restL, l ≠ [] ∧ '\r' ∉ l ∧ '\n' ∉ l :=
    fun l hlmem => segLines_mem_spec T l (by rw [hsl]; exact hlmem)
  obtain ⟨c0, hc0, hc0ws⟩ := segLines_last_not_ws T first restL hsl
  have hfirst_ne : first ≠ [] := (hmem first (by simp)).1
  have hheadM : first.head? = some 'M' := by
    obtain ⟨t, ht⟩ := List.isPrefixOf_iff_prefix.mp hpre
    rw [← ht]; rfl
  have hheadJ : ∀ c, (joinSep '\r' (first :: restL)).head? = some c →
      isJsWs c = false := by
    intro c hc
    rw [head?_joinSep '\r' first restL hfirst_ne, hheadM] at hc
    have hcM : c = 'M' := (Option.some.inj hc).symm
    subst hcM; decide
  have hlastJ : ∀ c, (joinSep '\r' (first :: restL)).getLast? = some c →
      isJsWs c = false := by
    intro c hc
    rw [hc0] at hc
    have hcc : c = c0 := (Option.some.inj hc).symm
    subst hcc; exact hc0ws
  have hJne : joinSep '\r' (first :: restL) ≠ [] := by
    intro he
    rw [he] at hc0; simp at hc0
  have htrim : jsTrim (joinSep '\r' (first :: restL) ++ ['\r'])
      = joinSep '\r' (first :: restL) :=
    jsTrim_append_cr _ hheadJ hlastJ hJne
  have hJnoLF : '\n' ∉ joinSep '\r' (first :: restL) := by
    intro hm
    rcases mem_joinSep '\r' '\n' (first :: restL) hm with h0 | ⟨l, hl, hin⟩
    · exact absurd h0 (by decide)
    · exact (hmem l hl).2.2 hin
  have hsegser : segLines (serializeHL7 M true) = first :: restL := by
    unfold segLines
    rw [hser, htrim]
    unfold normalizeLineEndings
    rw [normCRLF_of_no_lf _ hJnoLF, normLF_of_no_lf _ hJnoLF]
    rw [splitOnChar_joinSep '\r' (first :: restL) (by simp)
      (fun p hp => (hmem p hp).2.1)]
    exact List.filter_eq_self.mpr (fun l hlm => by
      simp only [decide_eq_true_eq]
      exact List.length_pos.mpr (hmem l hlm).1)
  simp only [parseHL7, hsegser]
  rw [if_pos hpre]
  simp only [hext, hps]
  rw [hM]

theorem parseHL7_serializeHL7_roundtrip_witness :
    parseHL7 "MSH|^~\\&|A\rPID|1".toList = .ok witnessMsgA ∧
      parseHL7 (serializeHL7 witnessMsgA true) = .ok witnessMsgA :=
  ⟨by rfl,
   parseHL7_serializeHL7_roundtrip "MSH|^~\\&|A\rPID|1".toList witnessMsgA
     (by rfl)⟩

/-- C10: Field-level re-parse/serialize identity — for every string `s`,
delimiters record `d` and field index `i`, serializing the field produced by
`reparseFieldFromString s d i` yields exactly `s`, and that field carries the
index `i`: the three-level split by repeat, component and subcomponent
delimiters followed by the three-level join is the identity on strings. -/
theorem reparseField_serializeField_id (s : Str) (d : HL7Delimiters) (i : Nat) :
    serializeField (reparseFieldFromString s d i) d = s ∧
      (reparseFieldFromString s d i).index = i :=
  ⟨serializeField_parseField s d i, rfl⟩

/-!
## The encoding block read by the Delimiter Resolver
-/

theorem idxOf?_append_sep (c : Char) : ∀ (p t : Str), c ∉ p →
    idxOf? c (p ++ c :: t) = some p.length
  | [], t, _ => by simp [idxOf?]
  | a :: p', t, h => by
    have hac : a ≠ c := fun e => h (by simp [e])
    have hcp : c ∉ p' := fun e => h (List.mem_cons.mpr (Or.inr e))
    rw [List.cons_append]
    show (if a = c then some 0 else (idxOf? c (p' ++ c :: t)).map (· + 1)) = _
    rw [if_neg hac, idxOf?_append_sep c p' t hcp]
    rfl

theorem extractDelimiters_of_block (fd : Char) (blk rest : Str)
    (hblk : fd ∉ blk) (hlen : 3 ≤ blk.length + rest.length) :
    extractDelimiters ("MSH".toList ++ fd :: (blk ++ fd :: rest))
      = if blk.length < 4 then
          some { segment := '\r', field := fd,
                 rep := charOrDefault blk 1 '~',
                 component := charOrDefault blk 0 '^',
                 subcomponent := charOrDefault blk 3 '&',
                 escape := charOrDefault blk 2 '\\' }
        else
          some { segment := '\r', field := fd,
                 rep := charAt blk 1, component := charAt blk 0,
                 subcomponent := charAt blk 3, escape := charAt blk 2 } := by
  have hlenl : ("MSH".toList ++ fd :: (blk ++ fd :: rest)).length
      = 5 + blk.length + rest.length := by
    simp [List.length_append]
    omega
  have hpre : "MSH".toList.isPrefixOf ("MSH".toList ++ fd :: (blk ++ fd :: rest))
      = true :=
    List.isPrefixOf_iff_prefix.mpr ⟨fd :: (blk ++ fd :: rest), rfl⟩
  have hcharAt : charAt ("MSH".toList ++ fd :: (blk ++ fd :: rest)) 3 = fd := rfl
  have hdrop : ("MSH".toList ++ fd :: (blk ++ fd :: rest)).drop 4
      = blk ++ fd :: rest := rfl
  have hidxfrom : jsIndexOfFrom ("MSH".toList ++ fd :: (blk ++ fd :: rest)) fd 4
      = ((4 + blk.length : Nat) : Int) := by
    unfold jsIndexOfFrom
    rw [hdrop, idxOf?_append_sep fd blk rest hblk]
  have henc : jsSubstring ("MSH".toList ++ fd :: (blk ++ fd :: rest)) 4
      ((4 + blk.length : Nat) : Int) = blk := by
    rw [jsSubstring_window_of_eq _ _ _ 4 (4 + blk.length) (by norm_num) rfl
      (by omega) (by rw [hlenl]; omega)]
    have h4 : ("MSH".toList ++ [fd]).length = 4 := rfl
    have hassoc : ("MSH".toList ++ fd :: (blk ++ fd :: rest))
        = ("MSH".toList ++ [fd]) ++ (blk ++ fd :: rest) := by simp
    rw [hassoc, List.take_append_eq_append_take,
      List.take_of_length_le (by rw [h4]; omega), h4]
    have h44 : 4 + blk.length - 4 = blk.length := by omega
    rw [h44]
    have htakeblk : (blk ++ fd :: rest).take blk.length = blk := by
      have := List.take_left blk (fd :: rest)
      exact this
    rw [htakeblk]
    rw [show (4 : Nat) = ("MSH".toList ++ [fd]).length from rfl, List.drop_left]
  simp only [extractDelimiters]
  rw [if_neg (by
    rw [not_or, hlenl]
    constructor
    · rw [hpre]; simp
    · omega)]
  rw [hcharAt, hidxfrom, henc]

/-- C6: Delimiter fidelity — the four characters of the encoding block map
positionally to component, repeat, escape and subcomponent; in particular a
header with field delimiter `#` and block `!@$%` resolves to field `#`,
component `!`, repeat `@`, escape `$`, subcomponent `%`. -/
theorem delimiter_fidelity :
    (∀ (fd c1 c2 c3 c4 : Char) (rest : Str),
      fd ≠ c1 → fd ≠ c2 → fd ≠ c3 → fd ≠ c4 →
      extractDelimiters ("MSH".toList ++ fd :: c1 :: c2 :: c3 :: c4 :: fd :: rest)
        = some { segment := '\r', field := fd, rep := c2, component := c1,
                 subcomponent := c4, escape := c3 }) ∧
    extractDelimiters "MSH#!@$%#app".toList
      = some { segment := '\r', field := '#', rep := '@', component := '!',
               subcomponent := '%', escape := '$' } := by
  constructor
  · intro fd c1 c2 c3 c4 rest h1 h2 h3 h4
    have hblk : fd ∉ [c1, c2, c3, c4] := by
      simp only [List.mem_cons, List.not_mem_nil, or_false, not_or]
      exact ⟨h1, h2, h3, h4⟩
    have := extractDelimiters_of_block fd [c1, c2, c3, c4] rest hblk
      (by simp only [List.length_cons, List.length_nil]; omega)
    rw [show ("MSH".toList ++ fd :: ([c1, c2, c3, c4] ++ fd :: rest))
        = "MSH".toList ++ fd :: c1 :: c2 :: c3 :: c4 :: fd :: rest from rfl] at this
    rw [this, if_neg (by simp)]
    rfl
  · rfl

theorem delimiter_fidelity_witness :
    extractDelimiters
        ("MSH".toList ++ '#' :: '!' :: '@' :: '$' :: '%' :: '#' :: "app".toList)
      = some { segment := '\r', field := '#', rep := '@', component := '!',
               subcomponent := '%', escape := '$' } :=
  delimiter_fidelity.1 '#' '!' '@' '$' '%' "app".toList (by decide) (by decide)
    (by decide) (by decide)

/-- C7: Resolver leniency — when the encoding block has fewer than four
characters, each present slot is taken as given and each missing slot gets
its HL7 default (`^` component, `~` repeat, `\` escape, `&` subcomponent),
and the resolver still succeeds. -/
theorem resolver_leniency_defaults :
    (∀ (fd a b c : Char) (rest : Str),
      extractDelimiters ("MSH".toList ++ fd :: fd :: a :: b :: c :: rest)
        = some { segment := '\r', field := fd, rep := '~', component := '^',
                 subcomponent := '&', escape := '\\' }) ∧
    (∀ (fd c1 a b : Char) (rest : Str), fd ≠ c1 →
      extractDelimiters ("MSH".toList ++ fd :: c1 :: fd :: a :: b :: rest)
        = some { segment := '\r', field := fd, rep := '~', component := c1,
                 subcomponent := '&', escape := '\\' }) ∧
    (∀ (fd c1 c2 a : Char) (rest : Str), fd ≠ c1 → fd ≠ c2 →
      extractDelimiters ("MSH".toList ++ fd :: c1 :: c2 :: fd :: a :: rest)
        = some { segment := '\r', field := fd, rep := c2, component := c1,
                 subcomponent := '&', escape := '\\' }) ∧
    (∀ (fd c1 c2 c3 : Char) (rest : Str), fd ≠ c1 → fd ≠ c2 → fd ≠ c3 →
      extractDelimiters ("MSH".toList ++ fd :: c1 :: c2 :: c3 :: fd :: rest)
        = some { segment := '\r', field := fd, rep := c2, component := c1,
                 subcomponent := '&', escape := c3 }) := by
  refine ⟨?_, ?_, ?_, ?_⟩
  · intro fd a b c rest
    have := extractDelimiters_of_block fd [] (a :: b :: c :: rest) (by simp)
      (by simp only [List.length_cons, List.length_nil]; omega)
    rw [show ("MSH".toList ++ fd :: ([] ++ fd :: (a :: b :: c :: rest)))
        = "MSH".toList ++ fd :: fd :: a :: b :: c :: rest from rfl] at this
    rw [this, if_pos (by simp)]
    rfl
  · intro fd c1 a b rest h1
    have hblk : fd ∉ [c1] := by
      simp only [List.mem_cons, List.not_mem_nil, or_false, not_or]
      exact h1
    have := extractDelimiters_of_block fd [c1] (a :: b :: rest) hblk
      (by simp only [List.length_cons, List.length_nil]; omega)
    rw [show ("MSH".toList ++ fd :: ([c1] ++ fd :: (a :: b :: rest)))
        = "MSH".toList ++ fd :: c1 :: fd :: a :: b :: rest from rfl] at this
    rw [this, if_pos (by simp)]
    rfl
  · intro fd c1 c2 a rest h1 h2
    have hblk : fd ∉ [c1, c2] := by
      simp only [List.mem_cons, List.not_mem_nil, or_false, not_or]
      exact ⟨h1, h2⟩
    have := extractDelimiters_of_block fd [c1, c2] (a :: rest) hblk
      (by simp only [List.length_cons, List.length_nil]; omega)
    rw [show ("MSH".toList ++ fd :: ([c1, c2] ++ fd :: (a :: rest)))
        = "MSH".toList ++ fd :: c1 :: c2 :: fd :: a :: rest from rfl] at this
    rw [this, if_pos (by simp)]
    rfl
  · intro fd c1 c2 c3 rest h1 h2 h3
    have hblk : fd ∉ [c1, c2, c3] := by
      simp only [List.mem_cons, List.not_mem_nil, or_false, not_or]
      exact ⟨h1, h2, h3⟩
    have := extractDelimiters_of_block fd [c1, c2, c3] rest hblk
      (by simp only [List.length_cons, List.length_nil]; omega)
    rw [show ("MSH".toList ++ fd :: ([c1, c2, c3] ++ fd :: rest))
        = "MSH".toList ++ fd :: c1 :: c2 :: c3 :: fd :: rest from rfl] at this
    rw [this, if_pos (by simp)]
    rfl

theorem resolver_leniency_defaults_witness :
    extractDelimiters ("MSH".toList ++ '#' :: '!' :: '@' :: '$' :: '#' :: "x".toList)
      = some { segment := '\r', field := '#', rep := '@', component := '!',
               subcomponent := '&', escape := '$' } :=
  resolver_leniency_defaults.2.2.2 '#' '!' '@' '$' "x".toList (by decide)
    (by decide) (by decide)

/-- C2: Header parse special-casing — whenever `parseHL7` succeeds, the first
segment's first two fields are a single-repeat single-component
single-subcomponent leaf holding exactly the resolved field delimiter
(index 1), and such a leaf holding exactly the raw encoding-characters
substring of the header line, undecomposed (index 2). -/
theorem header_fields_special (T : Str) (M : HL7Message)
    (h : parseHL7 T = .ok M) :
    ∃ seg restSegs, M.segments = seg :: restSegs ∧
      seg.fields.take 2 =
        [createSimpleField [M.delimiters.field] 1,
         createSimpleField
           (headerEncodingChars ((segLines T).headD []) M.delimiters.field) 2] := by
  obtain ⟨first, restL, d, segs, hsl, hpre, hext, hps, hM⟩ := parseHL7_ok_inv T M h
  subst hM
  refine ⟨parseMSHSegment first d, segs, rfl, ?_⟩
  rw [hsl]
  simp only [List.headD_cons]
  cases hidx : idxOf? d.field (jsSubstring first 4 first.length) with
  | none => simp only [parseMSHSegment, headerEncodingChars, hidx]; rfl
  | some p => simp only [parseMSHSegment, headerEncodingChars, hidx]; rfl

theorem header_fields_special_witness :
    ∃ seg restSegs, witnessMsgA.segments = seg :: restSegs ∧
      seg.fields.take 2 =
        [createSimpleField [witnessMsgA.delimiters.field] 1,
         createSimpleField
           (headerEncodingChars ((segLines "MSH|^~\\&|A\rPID|1".toList).headD [])
             witnessMsgA.delimiters.field) 2] :=
  header_fields_special "MSH|^~\\&|A\rPID|1".toList witnessMsgA (by rfl)

/-!
## Finding and filtering fields for the header serializer
-/

theorem find?_filter_of_imp {p q : FieldNode → Bool} : ∀ (l : List FieldNode),
    (∀ x, p x = true → q x = true) → (l.filter q).find? p = l.find? p
  | [], _ => rfl
  | x :: t, himp => by
    rw [List.filter_cons]
    by_cases hq : q x = true
    · rw [if_pos hq]
      by_cases hp : p x = true
      · simp [List.find?_cons, hp]
      · have hp' : p x = false := by simpa using hp
        simp [List.find?_cons, hp', find?_filter_of_imp t himp]
    · rw [if_neg hq]
      have hp' : p x = false := by
        by_contra hc
        exact hq (himp x (by simpa using hc))
      simp [List.find?_cons, hp', find?_filter_of_imp t himp]

/-- C3: Header serialization — `serializeMSHSegment` emits the header name,
then the field delimiter, then (a) the verbatim value of a leaf field of
index 2 when one is found, or (b) the encoding characters rebuilt from the
Delimiters record when no index-2 field exists, followed by the fields of
index above 2, sorted, with the gap-padding emitter anchored at index 2; a
field with index 1 is never emitted (removing all index-1 fields does not
change the output). -/
theorem serializeMSH_header_shape (seg : SegmentNode) (d : HL7Delimiters) :
    (∀ v : Str,
      seg.fields.find? (fun f => f.index = 2) = some (createSimpleField v 2) →
      serializeMSHSegment seg d = "MSH".toList ++ d.field ::
        (v ++ emitFields (sortFields (seg.fields.filter (fun f => 2 < f.index))) d 2)) ∧
    (seg.fields.find? (fun f => f.index = 2) = none →
      serializeMSHSegment seg d = "MSH".toList ++ d.field ::
        ([d.component, d.rep, d.escape, d.subcomponent] ++
          emitFields (sortFields (seg.fields.filter (fun f => 2 < f.index))) d 2)) ∧
    serializeMSHSegment ⟨seg.name, seg.fields.filter (fun f => ¬ f.index = 1)⟩ d
      = serializeMSHSegment seg d := by
  refine ⟨?_, ?_, ?_⟩
  · intro v hf
    simp only [serializeMSHSegment, hf]
    rfl
  · intro hf
    simp only [serializeMSHSegment, hf]
  · simp only [serializeMSHSegment]
    rw [find?_filter_of_imp seg.fields (fun x hx => by
      simp only [decide_eq_true_eq] at hx ⊢
      omega)]
    rw [List.filter_filter]
    have hcongr :
        List.filter (fun a => decide (2 < a.index) && decide (¬ a.index = 1))
          seg.fields
        = List.filter (fun f => decide (2 < f.index)) seg.fields :=
      List.filter_congr (fun x _ => by
        by_cases hx : 2 < x.index
        · have hx1 : ¬ x.index = 1 := by omega
          simp [hx, hx1]
        · simp [hx])
    rw [hcongr]

theorem serializeMSH_header_shape_witness :
    serializeMSHSegment
        ⟨"MSH".toList,
         [createSimpleField "|".toList 1, createSimpleField "^~\\&".toList 2,
          createSimpleField "APP".toList 3]⟩ stdDelims
      = "MSH".toList ++ stdDelims.field ::
          ("^~\\&".toList ++
            emitFields
              (sortFields
                ([createSimpleField "|".toList 1, createSimpleField "^~\\&".toList 2,
                  createSimpleField "APP".toList 3].filter (fun f => 2 < f.index)))
              stdDelims 2) :=
  (serializeMSH_header_shape
      ⟨"MSH".toList,
       [createSimpleField "|".toList 1, createSimpleField "^~\\&".toList 2,
        createSimpleField "APP".toList 3]⟩ stdDelims).1
    "^~\\&".toList (by rfl)

/-!
## Sorting is a sorted permutation; emission tokens
-/

theorem insertFieldSorted_perm (f : FieldNode) : ∀ l : List FieldNode,
    (insertFieldSorted f l).Perm (f :: l)
  | [] => List.Perm.refl _
  | g :: gs => by
    unfold insertFieldSorted
    by_cases h : f.index ≤ g.index
    · rw [if_pos h]
    · rw [if_neg h]
      exact (List.Perm.cons g (insertFieldSorted_perm f gs)).trans
        (List.Perm.swap f g gs)

theorem sortFields_perm : ∀ l : List FieldNode, (sortFields l).Perm l
  | [] => List.Perm.refl _
  | f :: fs =>
    (insertFieldSorted_perm f (sortFields fs)).trans
      (List.Perm.cons f (sortFields_perm fs))

theorem mem_insertFieldSorted (f x : FieldNode) (l : List FieldNode)
    (h : x ∈ insertFieldSorted f l) : x = f ∨ x ∈ l :=
  List.mem_cons.mp ((insertFieldSorted_perm f l).mem_iff.mp h)

theorem insertFieldSorted_pairwise (f : FieldNode) : ∀ l : List FieldNode,
    l.Pairwise (fun a b => a.index ≤ b.index) →
    (insertFieldSorted f l).Pairwise (fun a b => a.index ≤ b.index)
  | [], _ => by simp [insertFieldSorted]
  | g :: gs, h => by
    obtain ⟨hg, hgs⟩ := List.pairwise_cons.mp h
    unfold insertFieldSorted
    by_cases hle : f.index ≤ g.index
    · rw [if_pos hle]
      refine List.pairwise_cons.mpr ⟨?_, h⟩
      intro x hx
      cases List.mem_cons.mp hx with
      | inl h0 => subst h0; exact hle
      | inr h1 => exact le_trans hle (hg x h1)
    · rw [if_neg hle]
      refine List.pairwise_cons.mpr ⟨?_, insertFieldSorted_pairwise f gs hgs⟩
      intro x hx
      cases mem_insertFieldSorted f x gs hx with
      | inl h0 => subst h0; omega
      | inr h1 => exact hg x h1

theorem sortFields_pairwise : ∀ l : List FieldNode,
    (sortFields l).Pairwise (fun a b => a.index ≤ b.index)
  | [] => List.Pairwise.nil
  | f :: fs => insertFieldSorted_pairwise f (sortFields fs) (sortFields_pairwise fs)

theorem splitOnChar_append_run (c : Char) : ∀ (g : Nat) (X R : Str), c ∉ X →
    splitOnChar c (X ++ (List.replicate g c ++ c :: R))
      = X :: (List.replicate g [] ++ splitOnChar c R)
  | 0, X, R, h => by simpa using splitOnChar_append_sep c X R h
  | g + 1, X, R, h => by
    have h1 : X ++ (List.replicate (g + 1) c ++ c :: R)
        = X ++ c :: (List.replicate g c ++ c :: R) := by
      simp [List.replicate_succ]
    rw [h1, splitOnChar_append_sep c X _ h]
    have h2 := splitOnChar_append_run c g [] R (by simp)
    simp only [List.nil_append] at h2
    rw [h2]
    simp [List.replicate_succ]

theorem splitOnChar_emitFields (d : HL7Delimiters) :
    ∀ (fs : List FieldNode) (X : Str) (last : Nat), d.field ∉ X →
    (∀ f ∈ fs, d.field ∉ serializeField f d) →
    splitOnChar d.field (X ++ emitFields fs d last) = X :: gapTokens d last fs
  | [], X, last, hX, _ => by
    simp only [emitFields, List.append_nil, gapTokens]
    exact splitOnChar_of_not_mem d.field X hX
  | f :: fs, X, last, hX, hvals => by
    rw [emitFields, splitOnChar_append_run d.field _ X _ hX,
      splitOnChar_emitFields d fs (serializeField f d) f.index
        (hvals f (List.mem_cons_self f fs))
        (fun g hg => hvals g (List.mem_cons.mpr (Or.inr hg))),
      gapTokens]

/-- C4: Gap padding on serialize — for every non-header segment, the output
is the segment name followed by the gap-padding emitter applied to a
permutation of the segment's fields that is sorted ascending by index; for
any segment whose name and serialized field values are free of the field
delimiter, splitting the output on the field delimiter yields the name and
then, before each field's value, exactly one bare (empty) field token per
index skipped since the previously emitted index (counted from index 0).
In particular a segment holding only a field with index `i` serializes with
`i - 1` bare delimiters before that field's delimiter and value (4 of them
for `i = 5`), and two fields given out of order are emitted in ascending
index order with the gaps padded. -/
theorem serializeSegment_gap_padding (seg : SegmentNode) (d : HL7Delimiters) :
    (∃ fs : List FieldNode, fs.Perm seg.fields ∧
      fs.Pairwise (fun a b => a.index ≤ b.index) ∧
      serializeSegment seg d = seg.name ++ emitFields fs d 0 ∧
      (d.field ∉ seg.name → (∀ f ∈ seg.fields, d.field ∉ serializeField f d) →
        splitOnChar d.field (serializeSegment seg d)
          = seg.name :: gapTokens d 0 fs)) ∧
    (∀ (name v : Str) (i : Nat),
      serializeSegment ⟨name, [createSimpleField v i]⟩ d
        = name ++ (List.replicate (i - 1) d.field ++ d.field :: v)) ∧
    (∀ (name vi vj : Str) (i j : Nat), i < j →
      serializeSegment ⟨name, [createSimpleField vj j, createSimpleField vi i]⟩ d
        = name ++ (List.replicate (i - 1) d.field ++ d.field ::
            (vi ++ (List.replicate (j - (i + 1)) d.field ++ d.field :: vj)))) := by
  refine ⟨⟨sortFields seg.fields, sortFields_perm seg.fields,
    sortFields_pairwise seg.fields, rfl, ?_⟩, ?_, ?_⟩
  · intro hname hvals
    show splitOnChar d.field (seg.name ++ emitFields (sortFields seg.fields) d 0)
      = _
    exact splitOnChar_emitFields d (sortFields seg.fields) seg.name 0 hname
      (fun f hf => hvals f ((sortFields_perm seg.fields).mem_iff.mp hf))
  · intro name v i
    show name ++ emitFields (sortFields [createSimpleField v i]) d 0 = _
    rw [show sortFields [createSimpleField v i] = [createSimpleField v i] from rfl]
    simp only [emitFields, createSimpleField, serializeField, serializeRepeats,
      serializeComponents, serializeSubcomponents, List.map_cons, List.map_nil,
      joinSep, List.append_nil]
  · intro name vi vj i j hij
    show name ++
        emitFields (sortFields [createSimpleField vj j, createSimpleField vi i]) d 0
      = _
    have hsort : sortFields [createSimpleField vj j, createSimpleField vi i]
        = [createSimpleField vi i, createSimpleField vj j] := by
      show insertFieldSorted (createSimpleField vj j) [createSimpleField vi i] = _
      unfold insertFieldSorted
      rw [if_neg (by simp only [createSimpleField]; omega)]
      rfl
    rw [hsort]
    simp only [emitFields, createSimpleField, serializeField, serializeRepeats,
      serializeComponents, serializeSubcomponents, List.map_cons, List.map_nil,
      joinSep, List.append_nil]

theorem serializeSegment_gap_padding_witness :
    (∃ fs : List FieldNode, fs.Perm gapWitnessSeg.fields ∧
      fs.Pairwise (fun a b => a.index ≤ b.index) ∧
      serializeSegment gapWitnessSeg stdDelims
        = gapWitnessSeg.name ++ emitFields fs stdDelims 0 ∧
      splitOnChar stdDelims.field (serializeSegment gapWitnessSeg stdDelims)
        = gapWitnessSeg.name :: gapTokens stdDelims 0 fs) ∧
    serializeSegment ⟨"PID".toList,
        [createSimpleField "B".toList 5, createSimpleField "A".toList 2]⟩ stdDelims
      = "PID".toList ++ (List.replicate (2 - 1) stdDelims.field ++
          stdDelims.field :: ("A".toList ++
            (List.replicate (5 - (2 + 1)) stdDelims.field ++
              stdDelims.field :: "B".toList))) := by
  constructor
  · obtain ⟨fs, h1, h2, h3, h4⟩ :=
      (serializeSegment_gap_padding gapWitnessSeg stdDelims).1
    exact ⟨fs, h1, h2, h3, h4 (by decide) (by decide)⟩
  · exact (serializeSegment_gap_padding gapWitnessSeg stdDelims).2.2
      "PID".toList "A".toList "B".toList 2 5 (by decide)

/-- C5: Fail conditions and fail-fast — the empty string yields the
`EmptyInput` failure; an input starting with a non-header segment yields the
`MissingHeader` failure; an input with a later line whose leading token
breaks the segment-name pattern yields the `InvalidSegmentName` failure
carrying that line's index; and the segment loop is fail-fast, returning the
error of the first failing line whatever follows it, with no partial
message. -/
theorem parse_fail_conditions :
    parseHL7 [] = .error ⟨"No segments found in input".toList, none, none, none, none⟩ ∧
    parseHL7 "PID|1||12345".toList
      = .error ⟨"HL7 message must start with MSH segment".toList, none, none, none,
          some "PID|1||12345".toList⟩ ∧
    parseHL7 "MSH|^~\\&|A\rXY|1".toList
      = .error ⟨"Invalid segment name: \"XY\"".toList, some 1, some "XY".toList, none,
          some "XY|1".toList⟩ ∧
    (∀ (pre : List Str) (l : Str) (ls : List Str) (d : HL7Delimiters) (i : Nat)
        (segs : List SegmentNode) (e : ParseError),
      parseSegments pre d i = .ok segs →
      parseSegment l d (i + pre.length) = .error e →
      parseSegments (pre ++ l :: ls) d i = .error e) := by
  refine ⟨by rfl, by rfl, by rfl, ?_⟩
  intro pre
  induction pre with
  | nil =>
    intro l ls d i segs e _ herr
    simp only [List.length_nil, Nat.add_zero] at herr
    simp only [List.nil_append, parseSegments, herr]
  | cons p pre' ih =>
    intro l ls d i segs e hok herr
    cases hp : parseSegment p d i with
    | error e' =>
      simp only [parseSegments, hp] at hok
      exact absurd hok (by simp)
    | ok s =>
      cases hrest : parseSegments pre' d (i + 1) with
      | error e' =>
        simp only [parseSegments, hp, hrest] at hok
        exact absurd hok (by simp)
      | ok segs' =>
        have herr' : parseSegment l d ((i + 1) + pre'.length) = .error e := by
          have : (i + 1) + pre'.length = i + (p :: pre').length := by
            simp [List.length_cons]
            omega
          rw [this]
          exact herr
        have h2 : parseSegments (pre'.append (l :: ls)) d (i + 1)
            = Except.error e := ih l ls d (i + 1) segs' e hrest herr'
        simp only [List.cons_append, parseSegments, hp, h2]

theorem parse_fail_conditions_witness :
    parseSegments ["PID|1".toList, "XY|1".toList, "OBX|2".toList] stdDelims 1
      = .error ⟨"Invalid segment name: \"XY\"".toList, some 2, some "XY".toList,
          none, some "XY|1".toList⟩ :=
  parse_fail_conditions.2.2.2 ["PID|1".toList] "XY|1".toList ["OBX|2".toList]
    stdDelims 1 [⟨"PID".toList, [⟨1, [⟨[⟨[⟨"1".toList⟩]⟩]⟩]⟩]⟩]
    ⟨"Invalid segment name: \"XY\"".toList, some 2, some "XY".toList, none,
      some "XY|1".toList⟩
    (by rfl) (by rfl)

/-!
## Shapes of parsed fields (for the container-nesting invariant)
-/

theorem parseField_shape (s : Str) (d : HL7Delimiters) (i : Nat) :
    (parseField s d i).repeats ≠ [] ∧
    ∀ r ∈ (parseField s d i).repeats, r.components ≠ [] ∧
      ∀ c ∈ r.components, c.subcomponents ≠ [] := by
  unfold parseField
  constructor
  · intro he
    exact splitOnChar_ne_nil d.rep s (List.map_eq_nil_iff.mp he)
  · intro r hr
    obtain ⟨rs, -, hreq⟩ := List.mem_map.mp hr
    subst hreq
    constructor
    · intro he
      exact splitOnChar_ne_nil d.component rs (List.map_eq_nil_iff.mp he)
    · intro c hc
      obtain ⟨cs, -, hceq⟩ := List.mem_map.mp hc
      subst hceq
      intro he
      exact splitOnChar_ne_nil d.subcomponent cs (List.map_eq_nil_iff.mp he)

theorem parseFieldsFrom_mem (pieces : List Str) (d : HL7Delimiters)
    (start : Nat) (f : FieldNode) (hf : f ∈ parseFieldsFrom pieces d start) :
    ∃ p k, f = parseField p d k := by
  induction pieces generalizing start with
  | nil => simp [parseFieldsFrom] at hf
  | cons p ps ih =>
    simp only [parseFieldsFrom, List.mem_cons] at hf
    cases hf with
    | inl h0 => exact ⟨p, start, h0⟩
    | inr h1 => exact ih (start + 1) h1

theorem parseSegment_fields_mem (l : Str) (d : HL7Delimiters) (i : Nat)
    (seg : SegmentNode) (h : parseSegment l d i = .ok seg) (f : FieldNode)
    (hf : f ∈ seg.fields) : ∃ p k, f = parseField p d k := by
  cases hsp : splitOnChar d.field l with
  | nil => exact absurd hsp (splitOnChar_ne_nil _ _)
  | cons name restParts =>
    simp only [parseSegment, hsp] at h
    split at h
    · exact absurd h (by simp)
    · split at h
      · exact absurd h (by simp)
      · simp only [Except.ok.injEq] at h
        subst h
        exact parseFieldsFrom_mem restParts d 1 f hf

theorem parseSegments_mem (lines : List Str) (d : HL7Delimiters) (i : Nat)
    (segs : List SegmentNode) (h : parseSegments lines d i = .ok segs)
    (seg : SegmentNode) (hseg : seg ∈ segs) :
    ∃ l k, parseSegment l d k = .ok seg := by
  induction lines generalizing i segs with
  | nil =>
    simp only [parseSegments, Except.ok.injEq] at h
    subst h
    simp at hseg
  | cons line restL ih =>
    cases hp : parseSegment line d i with
    | error e =>
      simp only [parseSegments, hp] at h
      exact absurd h (by simp)
    | ok s =>
      cases hrest : parseSegments restL d (i + 1) with
      | error e =>
        simp only [parseSegments, hp, hrest] at h
        exact absurd h (by simp)
      | ok segs' =>
        simp only [parseSegments, hp, hrest, Except.ok.injEq] at h
        subst h
        cases List.mem_cons.mp hseg with
        | inl h0 => exact ⟨line, i, h0 ▸ hp⟩
        | inr h1 => exact ih (i + 1) segs' hrest h1

theorem parseMSHSegment_fields_shape (l : Str) (d : HL7Delimiters) :
    ∀ f ∈ (parseMSHSegment l d).fields, f.repeats ≠ [] ∧
      ∀ r ∈ f.repeats, r.components ≠ [] ∧
        ∀ c ∈ r.components, c.subcomponents ≠ [] := by
  intro f hf
  cases hidx : idxOf? d.field (jsSubstring l 4 l.length) with
  | none =>
    simp only [parseMSHSegment, hidx, List.mem_cons, List.not_mem_nil,
      or_false] at hf
    rcases hf with h0 | h0 <;> (subst h0; refine ⟨by simp, ?_⟩) <;>
      (intro r hr
       simp only [List.mem_singleton] at hr
       subst hr
       refine ⟨by simp, ?_⟩
       intro c hc
       simp only [List.mem_singleton] at hc
       subst hc
       simp)
  | some p =>
    simp only [parseMSHSegment, hidx, List.mem_cons] at hf
    rcases hf with h0 | h0 | h0
    · subst h0
      refine ⟨by simp, ?_⟩
      intro r hr
      simp only [List.mem_singleton] at hr
      subst hr
      refine ⟨by simp, ?_⟩
      intro c hc
      simp only [List.mem_singleton] at hc
      subst hc
      simp
    · subst h0
      refine ⟨by simp, ?_⟩
      intro r hr
      simp only [List.mem_singleton] at hr
      subst hr
      refine ⟨by simp, ?_⟩
      intro c hc
      simp only [List.mem_singleton] at hc
      subst hc
      simp
    · obtain ⟨piece, k, hfk⟩ := parseFieldsFrom_mem _ d 3 f h0
      subst hfk
      exact parseField_shape piece d k

theorem parseFieldString_simple (s : Str) (d : HL7Delimiters) (i : Nat)
    (h : containsDelimiters s d = false) :
    parseFieldString s d i = createSimpleField s i := by
  unfold containsDelimiters at h
  simp only [Bool.or_eq_false_iff] at h
  obtain ⟨⟨h1, h2⟩, h3⟩ := h
  have m1 : d.rep ∉ s := by simpa using h1
  have m2 : d.component ∉ s := by simpa using h2
  have m3 : d.subcomponent ∉ s := by simpa using h3
  unfold parseFieldString parseField
  rw [splitOnChar_of_not_mem d.rep s m1]
  simp only [List.map_cons, List.map_nil]
  rw [splitOnChar_of_not_mem d.component s m2]
  simp only [List.map_cons, List.map_nil]
  rw [splitOnChar_of_not_mem d.subcomponent s m3]
  rfl

/-- C8 counterexample: the claim "every segment has at least one field" is
false on the code — `parseHL7` succeeds on `MSH|^~\&|A\rPID` and the
resulting second segment has an empty field list (the line `PID` carries no
field delimiter, so no fields are produced for it). -/
theorem nonempty_containers_counterexample :
    parseHL7 "MSH|^~\\&|A\rPID".toList = .ok fieldlessSegMsg ∧
      ∃ seg ∈ fieldlessSegMsg.segments, seg.fields = [] :=
  ⟨by rfl, ⟨⟨"PID".toList, []⟩, by simp [fieldlessSegMsg], rfl⟩⟩

/-- C8 (amended): Non-empty containers invariant, except that a segment's
field list may be empty — for every successful parse the message has at
least one segment, every field of every segment has at least one repeat,
every repeat at least one component and every component at least one
subcomponent; and a field string with no repeat, component or subcomponent
delimiter occurrence parses to exactly one repeat containing one component
containing one subcomponent. -/
theorem nonempty_containers_amended (T : Str) (M : HL7Message)
    (h : parseHL7 T = .ok M) :
    M.segments ≠ [] ∧
    (∀ seg ∈ M.segments, ∀ f ∈ seg.fields,
      f.repeats ≠ [] ∧ ∀ r ∈ f.repeats, r.components ≠ [] ∧
        ∀ c ∈ r.components, c.subcomponents ≠ []) ∧
    (∀ (s : Str) (d : HL7Delimiters) (i : Nat),
      containsDelimiters s d = false →
      parseFieldString s d i = createSimpleField s i) := by
  obtain ⟨first, restL, d, segs, hsl, hpre, hext, hps, hM⟩ := parseHL7_ok_inv T M h
  subst hM
  refine ⟨by simp, ?_, fun s d' i hc => parseFieldString_simple s d' i hc⟩
  intro seg hseg f hf
  cases List.mem_cons.mp hseg with
  | inl h0 =>
    subst h0
    exact parseMSHSegment_fields_shape first d f hf
  | inr h1 =>
    obtain ⟨l, k, hlk⟩ := parseSegments_mem restL d 1 segs hps seg h1
    obtain ⟨p, k', hp⟩ := parseSegment_fields_mem l d k seg hlk f hf
    subst hp
    exact parseField_shape p d k'

theorem nonempty_containers_amended_witness :
    witnessMsgA.segments ≠ [] ∧
    (∀ seg ∈ witnessMsgA.segments, ∀ f ∈ seg.fields,
      f.repeats ≠ [] ∧ ∀ r ∈ f.repeats, r.components ≠ [] ∧
        ∀ c ∈ r.components, c.subcomponents ≠ []) ∧
    (∀ (s : Str) (d : HL7Delimiters) (i : Nat),
      containsDelimiters s d = false →
      parseFieldString s d i = createSimpleField s i) :=
  nonempty_containers_amended "MSH|^~\\&|A\rPID|1".toList witnessMsgA (by rfl)

/-!
## Line-ending tolerance
-/

theorem parseHL7_congr (T1 T2 : Str) (h : segLines T1 = segLines T2) :
    parseHL7 T1 = parseHL7 T2 := by
  unfold parseHL7
  rw [h]

theorem normCRLF_of_no_cr : ∀ s : Str, '\r' ∉ s → normCRLF s = s
  | [], _ => rfl
  | [_], _ => rfl
  | a :: b :: rest, h => by
    have ha : a ≠ '\r' := fun e => h (by simp [e])
    have hrest : '\r' ∉ b :: rest := fun e => h (List.mem_cons.mpr (Or.inr e))
    rw [normCRLF, if_neg (fun hab => ha hab.1),
      normCRLF_of_no_cr (b :: rest) hrest]

theorem dropWhile_map_comm (f : Char → Char) (p : Char → Bool)
    (hf : ∀ c, p (f c) = p c) : ∀ l : Str,
    (l.map f).dropWhile p = (l.dropWhile p).map f
  | [] => rfl
  | a :: t => by
    simp only [List.map_cons, List.dropWhile_cons, hf a]
    by_cases hp : p a = true
    · rw [if_pos hp, if_pos hp]
      exact dropWhile_map_comm f p hf t
    · rw [if_neg hp, if_neg hp, List.map_cons]

theorem jsTrim_map_comm (f : Char → Char) (hf : ∀ c, isJsWs (f c) = isJsWs c)
    (s : Str) : jsTrim (s.map f) = (jsTrim s).map f := by
  unfold jsTrim trimFront
  rw [dropWhile_map_comm f isJsWs hf s, ← List.map_reverse,
    dropWhile_map_comm f isJsWs hf _, List.map_reverse]

theorem mem_jsTrim (s : Str) (c : Char) (h : c ∈ jsTrim s) : c ∈ s := by
  unfold jsTrim trimFront at h
  have h1 := List.mem_reverse.mp h
  have h2 := List.Sublist.mem h1 (List.dropWhile_sublist _)
  have h3 := List.mem_reverse.mp h2
  exact List.Sublist.mem h3 (List.dropWhile_sublist _)

theorem mapCR2LF_segLines (T : Str) (hn : '\n' ∉ T) :
    segLines (mapCR2LF T) = segLines T := by
  have hσ : ∀ c : Char,
      isJsWs ((fun c => if c = '\r' then '\n' else c) c) = isJsWs c := by
    intro c
    show isJsWs (if c = '\r' then '\n' else c) = isJsWs c
    by_cases hc : c = '\r'
    · subst hc
      rw [if_pos rfl]
      decide
    · rw [if_neg hc]
  have hX : '\n' ∉ jsTrim T := fun hm => hn (mem_jsTrim T '\n' hm)
  have hkey : normalizeLineEndings (jsTrim (mapCR2LF T))
      = normalizeLineEndings (jsTrim T) := by
    unfold mapCR2LF
    rw [jsTrim_map_comm _ hσ T]
    have hnr : '\r' ∉ (jsTrim T).map (fun c => if c = '\r' then '\n' else c) := by
      intro hm
      obtain ⟨x, -, hfx⟩ := List.mem_map.mp hm
      by_cases hxr : x = '\r'
      · rw [if_pos hxr] at hfx; exact absurd hfx (by decide)
      · rw [if_neg hxr] at hfx; exact hxr hfx
    unfold normalizeLineEndings
    rw [normCRLF_of_no_cr _ hnr, normCRLF_of_no_lf _ hX, normLF_of_no_lf _ hX]
    unfold normLF
    rw [List.map_map]
    have hfin : List.map
        ((fun c => if c = '\n' then '\r' else c) ∘
          fun c => if c = '\r' then '\n' else c) (jsTrim T)
        = List.map (fun x => x) (jsTrim T) :=
      List.map_congr_left (fun x hx => by
        simp only [Function.comp_apply]
        by_cases hxr : x = '\r'
        · subst hxr; simp
        · rw [if_neg hxr, if_neg (fun e : x = '\n' => hX (e ▸ hx))])
    rw [hfin, List.map_id']
  unfold segLines
  rw [hkey]

theorem expandCRLF_eq_nil_iff : ∀ s : Str, expandCRLF s = [] ↔ s = []
  | [] => by simp [expandCRLF]
  | c :: rest => by
    unfold expandCRLF
    by_cases hc : c = '\r' <;> simp [hc]

theorem normCRLF_expandCRLF : ∀ s : Str, '\n' ∉ s →
    normCRLF (expandCRLF s) = s
  | [], _ => rfl
  | c :: rest, h => by
    have hrest : '\n' ∉ rest := fun e => h (List.mem_cons.mpr (Or.inr e))
    rw [expandCRLF]
    by_cases hc : c = '\r'
    · rw [if_pos hc]
      subst hc
      rw [normCRLF, if_pos ⟨rfl, rfl⟩, normCRLF_expandCRLF rest hrest]
    · rw [if_neg hc]
      cases hre : expandCRLF rest with
      | nil =>
        have h0 : rest = [] := (expandCRLF_eq_nil_iff rest).mp hre
        subst h0
        rfl
      | cons x xs =>
        rw [normCRLF, if_neg (fun hab => hc hab.1), ← hre,
          normCRLF_expandCRLF rest hrest]

theorem revExpandCRLF_append : ∀ (A B : Str),
    revExpandCRLF (A ++ B) = revExpandCRLF A ++ revExpandCRLF B
  | [], _ => rfl
  | a :: A', B => by
    rw [List.cons_append]
    simp only [revExpandCRLF]
    by_cases ha : a = '\r'
    · rw [if_pos ha, if_pos ha, revExpandCRLF_append A' B]
      rfl
    · rw [if_neg ha, if_neg ha, revExpandCRLF_append A' B]
      rfl

theorem reverse_expandCRLF : ∀ s : Str,
    (expandCRLF s).reverse = revExpandCRLF s.reverse
  | [] => rfl
  | c :: rest => by
    rw [expandCRLF]
    by_cases hc : c = '\r'
    · rw [if_pos hc]
      subst hc
      simp only [List.reverse_cons]
      rw [reverse_expandCRLF rest, revExpandCRLF_append]
      simp [revExpandCRLF, List.append_assoc]
    · rw [if_neg hc]
      simp only [List.reverse_cons]
      rw [reverse_expandCRLF rest, revExpandCRLF_append]
      simp only [revExpandCRLF, if_neg hc]
  termination_by s => s.length

theorem dropWhile_expandCRLF : ∀ s : Str,
    (expandCRLF s).dropWhile isJsWs = expandCRLF (s.dropWhile isJsWs)
  | [] => rfl
  | c :: rest => by
    rw [expandCRLF, List.dropWhile_cons]
    by_cases hc : c = '\r'
    · rw [if_pos hc]
      subst hc
      rw [show List.dropWhile isJsWs ('\r' :: '\n' :: expandCRLF rest)
          = List.dropWhile isJsWs (expandCRLF rest) from by
        rw [List.dropWhile_cons, if_pos (by decide), List.dropWhile_cons,
          if_pos (by decide)]]
      rw [dropWhile_expandCRLF rest, if_pos (by decide)]
    · rw [if_neg hc]
      by_cases hw : isJsWs c = true
      · rw [List.dropWhile_cons, if_pos hw, if_pos hw,
          dropWhile_expandCRLF rest]
      · rw [List.dropWhile_cons, if_neg (by simp [hw]), if_neg (by simp [hw]),
          expandCRLF, if_neg hc]

theorem dropWhile_revExpandCRLF : ∀ s : Str,
    (revExpandCRLF s).dropWhile isJsWs = revExpandCRLF (s.dropWhile isJsWs)
  | [] => rfl
  | c :: rest => by
    rw [revExpandCRLF, List.dropWhile_cons]
    by_cases hc : c = '\r'
    · rw [if_pos hc]
      subst hc
      rw [show List.dropWhile isJsWs ('\n' :: '\r' :: revExpandCRLF rest)
          = List.dropWhile isJsWs (revExpandCRLF rest) from by
        rw [List.dropWhile_cons, if_pos (by decide), List.dropWhile_cons,
          if_pos (by decide)]]
      rw [dropWhile_revExpandCRLF rest, if_pos (by decide)]
    · rw [if_neg hc]
      by_cases hw : isJsWs c = true
      · rw [List.dropWhile_cons, if_pos hw, if_pos hw,
          dropWhile_revExpandCRLF rest]
      · rw [List.dropWhile_cons, if_neg (by simp [hw]), if_neg (by simp [hw]),
          revExpandCRLF, if_neg hc]

theorem jsTrim_expandCRLF (T : Str) :
    jsTrim (expandCRLF T) = expandCRLF (jsTrim T) := by
  unfold jsTrim trimFront
  rw [dropWhile_expandCRLF T, reverse_expandCRLF (T.dropWhile isJsWs),
    dropWhile_revExpandCRLF _]
  have haux : ∀ Y : Str, (revExpandCRLF Y).reverse = expandCRLF Y.reverse := by
    intro Y
    have h0 := reverse_expandCRLF Y.reverse
    rw [List.reverse_reverse] at h0
    rw [← h0, List.reverse_reverse]
  exact haux _

theorem expandCRLF_segLines (T : Str) (hn : '\n' ∉ T) :
    segLines (expandCRLF T) = segLines T := by
  have hX : '\n' ∉ jsTrim T := fun hm => hn (mem_jsTrim T '\n' hm)
  have hkey : normalizeLineEndings (jsTrim (expandCRLF T))
      = normalizeLineEndings (jsTrim T) := by
    rw [jsTrim_expandCRLF T]
    unfold normalizeLineEndings
    rw [normCRLF_expandCRLF _ hX, normCRLF_of_no_lf _ hX]
  unfold segLines
  rw [hkey]

/-- C9: Line-ending tolerance — for every text `T` that uses `\r` as its
segment separator (no `\n` occurs in `T`) and parses successfully to `M`,
both the text with every `\r` replaced by `\n` and the text with every `\r`
replaced by `\r\n` parse successfully to exactly the same message `M`. -/
theorem line_ending_tolerance (T : Str) (M : HL7Message) (hn : '\n' ∉ T)
    (h : parseHL7 T = .ok M) :
    parseHL7 (mapCR2LF T) = .ok M ∧ parseHL7 (expandCRLF T) = .ok M := by
  constructor
  · rw [parseHL7_congr (mapCR2LF T) T (mapCR2LF_segLines T hn)]
    exact h
  · rw [parseHL7_congr (expandCRLF T) T (expandCRLF_segLines T hn)]
    exact h

theorem line_ending_tolerance_witness :
    parseHL7 (mapCR2LF "MSH|^~\\&|A\rPID|1".toList) = .ok witnessMsgA ∧
      parseHL7 (expandCRLF "MSH|^~\\&|A\rPID|1".toList) = .ok witnessMsgA :=
  line_ending_tolerance "MSH|^~\\&|A\rPID|1".toList witnessMsgA (by decide)
    (by rfl)
